import Mathlib

/-!
# Verification of the sudoku-owl engine

A shallow embedding of the sudoku engine (grid primitives, candidate engine,
technique detector, technique-limited solver, generator, daily puzzle) together
with theorems settling the specification claims.

Grids are total functions `Fin 9 → Fin 9 → Nat` (0 = empty, 1-9 = filled);
mutation in the source becomes functional update.  The source's ambient random
source (`randomFn`) is modelled as an explicit stream `σ : Nat → Nat` of raw
32-bit numerators (`randomFn() = σ k / 2^32`), threaded by an index `k`;
recursion on the call stack becomes fuel-indexed recursion, with the fuel chosen
strictly larger than the number of empty cells so that it is never exhausted.
-/

set_option maxRecDepth 2000
set_option linter.constructorNameAsVariable false

namespace SudokuOwl

/-- A board position: row and column, each in `[0,8]` (source: `Position`). -/
abbrev Pos : Type := Fin 9 × Fin 9

/-- A sudoku grid; cell values are `0` (empty) or `1`-`9`
(source: `Grid = CellValue[][]`). -/
def Grid : Type := Fin 9 → Fin 9 → Nat

instance : DecidableEq Grid :=
  inferInstanceAs (DecidableEq (Fin 9 → Fin 9 → Nat))

/-- Functional update of a single cell
(the source mutates `grid[row][col] = num` in place). -/
def setCell (g : Grid) (row col : Fin 9) (num : Nat) : Grid :=
  fun r c => if r = row ∧ c = col then num else g r c

/-- The all-zero grid (source: `createEmptyGrid`). -/
def createEmptyGrid : Grid := fun _ _ => 0

/-- Row index of the top-left corner of the 3x3 box containing row/column
index `i` (source: `getBoxStart`, `Math.floor(i / 3) * 3`). -/
def boxStart (i : Fin 9) : Fin 9 :=
  ⟨3 * (i.1 / 3), by have := i.isLt; omega⟩

/-- A cell of the 3x3 box with box coordinates `br bc : Fin 3` and in-box
offsets `dr dc : Fin 3`. -/
def boxCell (br bc dr dc : Fin 3) : Pos :=
  (⟨3 * br.1 + dr.1, by have := br.isLt; have := dr.isLt; omega⟩,
   ⟨3 * bc.1 + dc.1, by have := bc.isLt; have := dc.isLt; omega⟩)

/-- All cells of the 3x3 box containing `(row, col)`, in row-major order
(source: `getBoxCells`; also the box-scanning order of `isValidPlacement`). -/
def getBoxCells (row col : Fin 9) : List Pos :=
  (List.finRange 3).flatMap fun dr => (List.finRange 3).map fun dc =>
    boxCell ⟨row.1 / 3, by have := row.isLt; omega⟩
      ⟨col.1 / 3, by have := col.isLt; omega⟩ dr dc

/-- Whether `num` may be placed at `(row, col)` without conflicting with any
*other* occupied cell of the same row, column or 3x3 box; placing `0` is always
valid (source: `isValidPlacement` in the validator module; the three
early-return loops become three `List.all` scans). -/
def isValidPlacement (g : Grid) (row col : Fin 9) (num : Nat) : Bool :=
  if num = 0 then true
  else
    ((List.finRange 9).all fun c => decide (c = col) || decide (g row c ≠ num)) &&
    ((List.finRange 9).all fun r => decide (r = row) || decide (g r col ≠ num)) &&
    ((getBoxCells row col).all fun p =>
      (decide (p.1 = row) && decide (p.2 = col)) || decide (g p.1 p.2 ≠ num))

/-- All 81 positions in row-major order (top-to-bottom, left-to-right), the
scanning order of every `for (row) for (col)` loop in the source. -/
def allPositions : List Pos :=
  (List.finRange 9).flatMap fun r => (List.finRange 9).map fun c => (r, c)

/-- The first empty cell in row-major order, if any (the
`find next empty cell` double loop shared by `fillGrid` and
`countSolutions`). -/
def firstEmpty (g : Grid) : Option Pos :=
  allPositions.find? fun p => decide (g p.1 p.2 = 0)

/-- All cells of the row (source: `getRowCells`). -/
def getRowCells (row : Fin 9) : List Pos :=
  (List.finRange 9).map fun c => (row, c)

/-- All cells of the column (source: `getColCells`). -/
def getColCells (col : Fin 9) : List Pos :=
  (List.finRange 9).map fun r => (r, col)

/-- Cells sharing a row, column or box with `(row, col)`, excluding the cell
itself (source: `getRelatedCells`; the JS string-`Set` keeps insertion order,
so the box contributes only its cells outside the row and the column). -/
def getRelatedCells (row col : Fin 9) : List Pos :=
  (((List.finRange 9).filter fun c => decide (c ≠ col)).map fun c => ((row, c) : Pos)) ++
  (((List.finRange 9).filter fun r => decide (r ≠ row)).map fun r => ((r, col) : Pos)) ++
  ((getBoxCells row col).filter fun p => decide (p.1 ≠ row) && decide (p.2 ≠ col))

/-- Candidate lists for every cell: the numbers `1`-`9` that are valid
placements, for empty cells only (source: `initializeCandidates`; the JS
`Set<number>` is populated in ascending insertion order, so an ascending
`List Nat` is a faithful model). -/
def initializeCandidates (g : Grid) : Fin 9 → Fin 9 → List Nat :=
  fun row col =>
    if g row col = 0 then
      (List.range' 1 9).filter fun n => isValidPlacement g row col n
    else []

/-- Solving technique names (source: `TechniqueName`). -/
inductive TechniqueName : Type where
  | naked_single
  | hidden_single
  | naked_pair
  | pointing_pair
deriving DecidableEq, BEq, Repr

/-- Highlight region tag of a hint (source: `'row' | 'col' | 'box'`). -/
inductive HighlightRegion : Type where
  | row
  | col
  | box
deriving DecidableEq, BEq, Repr

/-- A hint from the teaching system (source: `Hint`). -/
structure Hint : Type where
  technique : TechniqueName
  description : String
  targetCell : Pos
  targetValue : Nat
  highlightCells : List Pos
  highlightRegion : Option HighlightRegion
deriving DecidableEq, Repr

/-- Finds a naked single: the first (row-major) empty cell whose candidate
list has exactly one entry (source: `findNakedSingle`). -/
def findNakedSingle (g : Grid) (cands : Fin 9 → Fin 9 → List Nat) : Option Hint :=
  (allPositions.find? fun p =>
      decide (g p.1 p.2 = 0) && ((cands p.1 p.2).length == 1)).map fun p =>
    let value := (cands p.1 p.2).headD 0
    let relatedCells := (getRelatedCells p.1 p.2).filter fun q => decide (g q.1 q.2 ≠ 0)
    { technique := .naked_single
      description := s!"Cell can only contain {value}"
      targetCell := p
      targetValue := value
      highlightCells := p :: relatedCells.take 5
      highlightRegion := none }

/-- Finds a hidden single: a number with exactly one possible cell in some
row, then some column, then some box (source: `findHiddenSingle`). -/
def findHiddenSingle (g : Grid) (cands : Fin 9 → Fin 9 → List Nat) : Option Hint :=
  (List.range' 1 9).findSome? fun num =>
    (((List.finRange 9).findSome? fun row =>
      match (List.finRange 9).filter
          (fun col => decide (g row col = 0) && (cands row col).contains num) with
      | [col] =>
        some { technique := .hidden_single
               description := s!"{num} can only go in one place in this row"
               targetCell := ((row, col) : Pos)
               targetValue := num
               highlightCells := getRowCells row
               highlightRegion := some .row }
      | _ => none) <|>
    ((List.finRange 9).findSome? fun col =>
      match (List.finRange 9).filter
          (fun row => decide (g row col = 0) && (cands row col).contains num) with
      | [row] =>
        some { technique := .hidden_single
               description := s!"{num} can only go in one place in this column"
               targetCell := ((row, col) : Pos)
               targetValue := num
               highlightCells := getColCells col
               highlightRegion := some .col }
      | _ => none)) <|>
    ((List.finRange 3).findSome? fun boxRow =>
      (List.finRange 3).findSome? fun boxCol =>
        match ((List.finRange 3).flatMap fun dr => (List.finRange 3).map fun dc =>
            boxCell boxRow boxCol dr dc).filter
            (fun p => decide (g p.1 p.2 = 0) && (cands p.1 p.2).contains num) with
        | [p] =>
          some { technique := .hidden_single
                 description := s!"{num} can only go in one place in this box"
                 targetCell := p
                 targetValue := num
                 highlightCells := getBoxCells p.1 p.2
                 highlightRegion := some .box }
        | _ => none)

/-- The 27 units scanned by `findNakedPair`: 9 rows, 9 columns, 9 boxes, in
that order (source: the `units` array). -/
def unitsList : List (List Pos) :=
  ((List.finRange 9).map getRowCells) ++
  ((List.finRange 9).map getColCells) ++
  ((List.finRange 3).flatMap fun br => (List.finRange 3).map fun bc =>
    getBoxCells (boxCell br bc 0 0).1 (boxCell br bc 0 0).2)

/-- All ordered pairs `(l[i], l[j])` with `i < j`, the iteration order of the
source's nested `for i / for j = i+1` loops over matching pair cells. -/
def ordPairs {α : Type} : List α → List (α × α)
  | [] => []
  | x :: xs => (xs.map fun y => (x, y)) ++ ordPairs xs

/-- Finds a naked pair: two cells of one unit with the same two candidates
that eliminate at least one candidate elsewhere in that unit
(source: `findNakedPair`). -/
def findNakedPair (g : Grid) (cands : Fin 9 → Fin 9 → List Nat) : Option Hint :=
  unitsList.findSome? fun unit =>
    let pairCells := unit.filter fun p =>
      decide (g p.1 p.2 = 0) && ((cands p.1 p.2).length == 2)
    (ordPairs pairCells).findSome? fun pq =>
      if cands pq.1.1 pq.1.2 = cands pq.2.1 pq.2.2 then
        let pairValues := cands pq.1.1 pq.1.2
        let hasElim := unit.any fun x =>
          (decide (x ≠ pq.1) && decide (x ≠ pq.2)) && decide (g x.1 x.2 = 0) &&
            pairValues.any fun v => (cands x.1 x.2).contains v
        if hasElim then
          let joined := String.intercalate " and " (pairValues.map toString)
          some { technique := .naked_pair
                 description := s!"These two cells form a naked pair with {joined}"
                 targetCell := pq.1
                 targetValue := pairValues.headD 0
                 highlightCells := [pq.1, pq.2]
                 highlightRegion := none }
        else none
      else none

/-- The default allowed-technique list of `findNextHint`. -/
def defaultTechniques : List TechniqueName :=
  [.naked_single, .hidden_single, .naked_pair, .pointing_pair]

/-- The technique-detection ladder: naked single, then hidden single, then
naked pair, each gated on membership in `allowed`; `pointing_pair` has no
detection step (source: `findNextHint`, including the
`// pointing_pair would go here` gap). -/
def findNextHint (g : Grid) (allowed : List TechniqueName) : Option Hint :=
  let cands := initializeCandidates g
  match (if allowed.contains .naked_single then findNakedSingle g cands else none) with
  | some h => some h
  | none =>
    match (if allowed.contains .hidden_single then findHiddenSingle g cands else none) with
    | some h => some h
    | none =>
      if allowed.contains .naked_pair then findNakedPair g cands else none

/-- Whether a grid has no remaining empty cell (the `isSolved` double loop
inside `solvePuzzleWithTechniques`). -/
def gridFull (g : Grid) : Bool :=
  allPositions.all fun p => decide (g p.1 p.2 ≠ 0)

/-- Result of a technique-limited solve (source: the
`{ solved, techniques }` object). -/
structure SolveResult : Type where
  solved : Bool
  techniques : List TechniqueName
deriving DecidableEq, Repr

/-- The `while (iterations < maxIterations)` loop of
`solvePuzzleWithTechniques`, with the remaining iteration budget as fuel:
check for completion, ask the detector for a hint, commit the hinted value,
repeat; fuel exhaustion aborts with `solved := false`. -/
def solveLoop (allowed : List TechniqueName) : Nat → Grid → List TechniqueName → SolveResult
  | 0, _, used => { solved := false, techniques := used }
  | fuel + 1, g, used =>
    if gridFull g then { solved := true, techniques := used }
    else
      match findNextHint g allowed with
      | none => { solved := false, techniques := used }
      | some h =>
        solveLoop allowed fuel (setCell g h.targetCell.1 h.targetCell.2 h.targetValue)
          (used ++ [h.technique])

/-- The grid reached by the same loop (identical control flow, returning the
working grid instead of the flag), used to state what `solveLoop` decided. -/
def solveFinal (allowed : List TechniqueName) : Nat → Grid → Grid
  | 0, g => g
  | fuel + 1, g =>
    if gridFull g then g
    else
      match findNextHint g allowed with
      | none => g
      | some h =>
        solveFinal allowed fuel (setCell g h.targetCell.1 h.targetCell.2 h.targetValue)

/-- Attempts to solve a puzzle using only the allowed techniques; the working
grid is a copy (`cloneGrid`), which the pure embedding renders as plain value
passing (source: `solvePuzzleWithTechniques`, `maxIterations = 1000`). -/
def solvePuzzleWithTechniques (puzzle : Grid) (allowed : List TechniqueName) : SolveResult :=
  solveLoop allowed 1000 puzzle []

/-- Play-time cell state (source: `CellState`; the JS `Set<number>` of pencil
marks is modelled as a `List Nat`). -/
structure CellState : Type where
  value : Nat
  isGiven : Bool
  isError : Bool
  candidates : List Nat
  isHighlighted : Bool
deriving DecidableEq, Repr

/-- Full play-time board state (source: `BoardState`). -/
def BoardState : Type := Fin 9 → Fin 9 → CellState

instance : DecidableEq BoardState :=
  inferInstanceAs (DecidableEq (Fin 9 → Fin 9 → CellState))

/-- Functional update of a single board cell. -/
def setBoardCell (b : BoardState) (row col : Fin 9) (cell : CellState) : BoardState :=
  fun r c => if r = row ∧ c = col then cell else b r c

/-- Projects a board state to its value grid (source: `boardToGrid`). -/
def boardToGrid (b : BoardState) : Grid :=
  fun r c => (b r c).value

/-- Gets a hint for the current board state by running the detector with its
default technique list (source: `getHint`). -/
def getHint (board : BoardState) : Option Hint :=
  findNextHint (boardToGrid board) defaultTechniques

/-- Highlights the cells of a hint: first clear the highlight flag on every
cell (the source also rebuilds each candidate set, a value-equal copy), then
set it on each in-bounds position in `hint.highlightCells`; positions are
`Fin 9` pairs here, so the source's `0 <= row/col < 9` guard is vacuous
(source: `applyHintHighlights`). -/
def applyHintHighlights (board : BoardState) (hint : Hint) : BoardState :=
  let cleared : BoardState := fun r c => { board r c with isHighlighted := false }
  hint.highlightCells.foldl
    (fun b p => setBoardCell b p.1 p.2 { b p.1 p.2 with isHighlighted := true })
    cleared

/-- Clears the highlight flag on every cell (source: `clearHighlights`). -/
def clearHighlights (board : BoardState) : BoardState :=
  fun r c => { board r c with isHighlighted := false }

/-- Result of comparing a board with the solution (source: the
`{ correct, errors }` object of `checkAgainstSolution`). -/
structure CheckResult : Type where
  correct : Bool
  errors : List Pos
deriving DecidableEq, Repr

/-- Compares the board values against the solution: a row-major pass pushes
every cell whose non-zero value differs from the solution onto `errors`, and
`correct` is `errors.length === 0` (source: `checkAgainstSolution`). -/
def checkAgainstSolution (board : BoardState) (solution : Grid) : CheckResult :=
  let errors := allPositions.filter fun p =>
    decide ((board p.1 p.2).value ≠ 0) && decide ((board p.1 p.2).value ≠ solution p.1 p.2)
  { correct := errors.length == 0, errors := errors }

/-! ## Generator -/

/-- Difficulty levels (source: `Difficulty`). -/
inductive Difficulty : Type where
  | easy
  | medium
  | hard
deriving DecidableEq, BEq, Repr

/-- Techniques permitted per difficulty (source: `difficultyTechniques`). -/
def difficultyTechniques : Difficulty → List TechniqueName
  | .easy => [.naked_single]
  | .medium => [.naked_single, .hidden_single]
  | .hard => [.naked_single, .hidden_single, .naked_pair, .pointing_pair]

/-- Swap the entries at indices `a` and `b`
(the source's `[r[i], r[j]] = [r[j], r[i]]`); out-of-range indices leave the
list unchanged (never reached: Fisher-Yates draws `j <= i < length`). -/
def swapAt {α : Type} (l : List α) (a b : Nat) : List α :=
  match l[a]?, l[b]? with
  | some x, some y => (l.set a y).set b x
  | _, _ => l

/-- The Fisher-Yates loop of `shuffleArray`, from index `i` down to `1`;
each step draws `σ k` (the numerator of `randomFn() ∈ [0,1)`) and computes
`j = Math.floor(randomFn() * (i + 1)) = σ k * (i + 1) / 2^32`. -/
def fyLoop {α : Type} (σ : Nat → Nat) : Nat → Nat → List α → List α × Nat
  | 0, k, l => (l, k)
  | i + 1, k, l =>
    let j := σ k * (i + 2) / 2 ^ 32
    fyLoop σ i (k + 1) (swapAt l (i + 1) j)

/-- Fisher-Yates shuffle over a copy of the array, consuming one random draw
per step and returning the next unused stream index
(source: `shuffleArray`). -/
def shuffleArray {α : Type} (σ : Nat → Nat) (k : Nat) (l : List α) : List α × Nat :=
  fyLoop σ (l.length - 1) k l

/-- One digit-trial pass of `fillGrid`: try the shuffled digits in order; on
the first valid digit whose recursive fill succeeds, return that grid,
otherwise restore the cell (functionally: keep `g`) and continue.
`next` is the recursive call at one smaller fuel. -/
def tryDigits (next : Nat → Grid → Option Grid × Nat) (g : Grid) (r c : Fin 9) :
    Nat → List Nat → Option Grid × Nat
  | k, [] => (none, k)
  | k, n :: rest =>
    if isValidPlacement g r c n then
      match next k (setCell g r c n) with
      | (some g', k') => (some g', k')
      | (none, k') => tryDigits next g r c k' rest
    else tryDigits next g r c k rest

/-- Recursive backtracking fill (source: `fillGrid`): find the first empty
cell in row-major order, shuffle `[1..9]`, try each digit.  The call depth is
bounded by the number of empty cells, so fuel `82` can never run out. -/
def fillGridAux (σ : Nat → Nat) : Nat → Nat → Grid → Option Grid × Nat
  | 0, k, _ => (none, k)
  | fuel + 1, k, g =>
    match firstEmpty g with
    | none => (some g, k)
    | some p =>
      let s := shuffleArray σ k [1, 2, 3, 4, 5, 6, 7, 8, 9]
      tryDigits (fillGridAux σ fuel) g p.1 p.2 s.2 s.1

/-- Generates a complete grid starting from the empty grid
(source: `generateCompleteGrid`); the source ignores `fillGrid`'s boolean and
returns the (mutated) grid, which on failure would still be the empty grid. -/
def generateCompleteGrid (σ : Nat → Nat) (k : Nat) : Grid × Nat :=
  match fillGridAux σ 82 k createEmptyGrid with
  | (some g, k') => (g, k')
  | (none, k') => (createEmptyGrid, k')

/-- The digit-trial fold of `countSolutions`' inner `for num` loop.  The
source's early `return` once `count.value > 1` is subsumed by the guard at the
head of each recursive call, which returns the count unchanged. -/
def digitFold (rec : Grid → Nat → Nat) (g : Grid) (r c : Fin 9) :
    List Nat → Nat → Nat
  | [], cnt => cnt
  | n :: rest, cnt =>
    digitFold rec g r c rest
      (if isValidPlacement g r c n then rec (setCell g r c n) cnt else cnt)

/-- Exhaustive solution counter with early exit at two solutions (source:
`countSolutions` with its `count` accumulator).  Fuel bounds the recursion
depth; `countSolutions` supplies `82 > 81 ≥` number of empty cells. -/
def countSolutionsAux : Nat → Grid → Nat → Nat
  | 0, _, cnt => cnt
  | fuel + 1, g, cnt =>
    if 1 < cnt then cnt
    else
      match firstEmpty g with
      | none => cnt + 1
      | some p => digitFold (fun g' c' => countSolutionsAux fuel g' c') g p.1 p.2
          [1, 2, 3, 4, 5, 6, 7, 8, 9] cnt

/-- Counts completions of a puzzle, stopping at 2 (source: `countSolutions`
called on a fresh clone, rendered here by value passing). -/
def countSolutions (g : Grid) : Nat :=
  countSolutionsAux 82 g 0

/-- Whether the puzzle has exactly one solution
(source: `hasUniqueSolution`). -/
def hasUniqueSolution (g : Grid) : Bool :=
  countSolutions g == 1

/-- The clue-count range `{min, max}` per difficulty
(source: `targetClues` inside `removeCells`). -/
def targetClues : Difficulty → Nat × Nat
  | .easy => (40, 45)
  | .medium => (32, 38)
  | .hard => (26, 31)

/-- Number of cells the carve step tries to remove:
`81 - Math.floor((min + max) / 2)` (source: `targetRemoved`). -/
def targetRemoved (difficulty : Difficulty) : Nat :=
  81 - ((targetClues difficulty).1 + (targetClues difficulty).2) / 2

/-- The carve loop of `removeCells`: over the shuffled positions, stop once
`removed >= targetRemoved`; otherwise tentatively zero the cell and keep the
removal only if the puzzle still has a unique solution. -/
def carveLoop (target : Nat) : List Pos → Grid → Nat → Grid × Nat
  | [], puzzle, removed => (puzzle, removed)
  | p :: rest, puzzle, removed =>
    if target ≤ removed then (puzzle, removed)
    else
      let tentative := setCell puzzle p.1 p.2 0
      if hasUniqueSolution tentative then carveLoop target rest tentative (removed + 1)
      else carveLoop target rest puzzle removed

/-- Removes cells from a complete grid to create a puzzle, visiting all 81
positions in shuffled order (source: `removeCells`); returns the puzzle, the
number of removed cells and the next random-stream index. -/
def removeCells (σ : Nat → Nat) (k : Nat) (solution : Grid) (difficulty : Difficulty) :
    Grid × Nat × Nat :=
  let s := shuffleArray σ k allPositions
  let r := carveLoop (targetRemoved difficulty) s.1 solution 0
  (r.1, r.2, s.2)

/-- Verifies that a puzzle is solvable with the difficulty's permitted
techniques (source: `verifyDifficulty`). -/
def verifyDifficulty (puzzle : Grid) (difficulty : Difficulty) : Bool :=
  (solvePuzzleWithTechniques puzzle (difficultyTechniques difficulty)).solved

/-- Number of non-zero cells (source: `countClues`). -/
def countClues (g : Grid) : Nat :=
  (allPositions.filter fun p => decide (g p.1 p.2 ≠ 0)).length

/-- A generated puzzle/solution pair (source: the return object of
`generatePuzzle`). -/
structure PuzzlePair : Type where
  puzzle : Grid
  solution : Grid
deriving DecidableEq

/-- The `while (attempts < maxAttempts)` loop of `generatePuzzle` with the
remaining attempts as fuel and `attempt` the post-increment counter; fuel
exhaustion is the source's fallback path (one more fill + carve, accepted
unconditionally). -/
def genLoop (σ : Nat → Nat) (difficulty : Difficulty) : Nat → Nat → Nat → PuzzlePair
  | 0, _, k =>
    let s := generateCompleteGrid σ k
    let r := removeCells σ s.2 s.1 difficulty
    { puzzle := r.1, solution := s.1 }
  | fuel + 1, attempt, k =>
    let s := generateCompleteGrid σ k
    let r := removeCells σ s.2 s.1 difficulty
    if difficulty = .easy ∨ 10 < attempt then { puzzle := r.1, solution := s.1 }
    else if verifyDifficulty r.1 difficulty then { puzzle := r.1, solution := s.1 }
    else genLoop σ difficulty fuel (attempt + 1) r.2.2

/-- Generates a puzzle of the requested difficulty from the random stream `σ`
(source: `generatePuzzle`, `maxAttempts = 100`). -/
def generatePuzzle (difficulty : Difficulty) (σ : Nat → Nat) : PuzzlePair :=
  genLoop σ difficulty 100 1 0

/-! ## Daily puzzle -/

/-- The Mulberry32 output scramble on the 32-bit state `t0` (source:
`createSeededRandom`): JS 32-bit bitwise ops on two's-complement words are
modelled on their unsigned representatives mod `2^32`; `Math.imul` is
multiplication mod `2^32`, `>>>` is division by a power of two. -/
def mulberryScramble (t0 : Nat) : Nat :=
  let t1 := ((t0 ^^^ t0 / 2 ^ 15) * (t0 ||| 1)) % 2 ^ 32
  let t2 := t1 ^^^ (t1 + ((t1 ^^^ t1 / 2 ^ 7) * (t1 ||| 61)) % 2 ^ 32) % 2 ^ 32
  t2 ^^^ t2 / 2 ^ 14

/-- The stream of numerators produced by `createSeededRandom(seed)`: the `k`-th
call has internal state `seed + (k+1) * 0x6d2b79f5` (reduced mod `2^32` at use,
matching the JS int32 coercions) and returns `scramble(state) / 2^32`. -/
def mulberryStream (seed : Nat) : Nat → Nat :=
  fun k => mulberryScramble ((seed + (k + 1) * 0x6d2b79f5) % 2 ^ 32)

/-- Day of week (0 = Sunday .. 6 = Saturday) of a Gregorian calendar date,
modelling the platform primitive `new Date(y, m-1, d).getDay()` used by
`generateDailyPuzzle` (Sakamoto's method; valid for the calendar dates the
daily feature passes in). -/
def dayOfWeek (y m d : Nat) : Nat :=
  let t := [0, 3, 2, 5, 0, 3, 5, 1, 4, 6, 2, 4]
  let y' := if m < 3 then y - 1 else y
  (y' + y' / 4 - y' / 100 + y' / 400 + t.getD (m - 1) 0 + d) % 7

/-- Parses a `YYYY-MM-DD` string into `(year, month, day)` (source:
`dateStr.split('-').map(Number)` with destructuring). -/
def parseDate (s : String) : Nat × Nat × Nat :=
  let parts := s.splitOn "-"
  (((parts.getD 0 "").toNat?).getD 0,
   ((parts.getD 1 "").toNat?).getD 0,
   ((parts.getD 2 "").toNat?).getD 0)

/-- The numeric daily seed `year*10000 + month*100 + day`
(source: the `seed` computation in `generateDailyPuzzle`). -/
def dailySeed (y m d : Nat) : Nat :=
  y * 10000 + m * 100 + d

/-- Difficulty by day of week: Monday/Tuesday easy, Wednesday/Thursday medium,
otherwise (Friday-Sunday) hard (source: the `dayOfWeek` switch in
`generateDailyPuzzle`). -/
def dailyDifficulty (y m d : Nat) : Difficulty :=
  if dayOfWeek y m d = 1 ∨ dayOfWeek y m d = 2 then .easy
  else if dayOfWeek y m d = 3 ∨ dayOfWeek y m d = 4 then .medium
  else .hard

/-- Result of `generateDailyPuzzle`. -/
structure DailyPuzzle : Type where
  puzzle : Grid
  solution : Grid
  difficulty : Difficulty
  date : String
deriving DecidableEq

/-- Generates the daily challenge for an explicit `YYYY-MM-DD` date string
(source: `generateDailyPuzzle` with `dateStr` provided; the no-argument
"today" branch is outside this model).  The source swaps the module-global
random source for `createSeededRandom(seed)` for the duration of the call and
restores it afterwards; the embedding threads that seeded stream explicitly,
so the swap/restore pair is the identity here. -/
def generateDailyPuzzle (dateStr : String) : DailyPuzzle :=
  let p := parseDate dateStr
  let seed := dailySeed p.1 p.2.1 p.2.2
  let difficulty := dailyDifficulty p.1 p.2.1 p.2.2
  let pair := generatePuzzle difficulty (mulberryStream seed)
  { puzzle := pair.puzzle, solution := pair.solution,
    difficulty := difficulty, date := dateStr }

/-! ## Semantic vocabulary

Predicates used to state the claims; all are decidable so that concrete
instances can be settled by `decide`. -/

/-- Two distinct positions share a row, a column, or a 3x3 box. -/
def SameUnit (p q : Pos) : Prop :=
  p ≠ q ∧ (p.1 = q.1 ∨ p.2 = q.2 ∨ (p.1.1 / 3 = q.1.1 / 3 ∧ p.2.1 / 3 = q.2.1 / 3))

instance (p q : Pos) : Decidable (SameUnit p q) := by
  unfold SameUnit; infer_instance

/-- Every occupied cell is a valid placement in its own slot, i.e. the grid
has no row/column/box conflict among its filled cells. -/
def ValidGrid (g : Grid) : Prop :=
  ∀ r c, g r c ≠ 0 → isValidPlacement g r c (g r c) = true

instance (g : Grid) : Decidable (ValidGrid g) := by
  unfold ValidGrid; infer_instance

/-- No two equal non-zero values share a row, column or box (the standard
Sudoku constraint, stated without reference to `isValidPlacement`). -/
def NoConflicts (g : Grid) : Prop :=
  ∀ p q : Pos, SameUnit p q → g p.1 p.2 ≠ 0 → g p.1 p.2 ≠ g q.1 q.2

instance (g : Grid) : Decidable (NoConflicts g) := by
  unfold NoConflicts; infer_instance

/-- `t` agrees with `g` on every non-zero cell of `g`. -/
def Extends (g t : Grid) : Prop :=
  ∀ r c, g r c ≠ 0 → t r c = g r c

instance (g t : Grid) : Decidable (Extends g t) := by
  unfold Extends; infer_instance

/-- Every cell is filled. -/
def Complete (g : Grid) : Prop :=
  ∀ r c, g r c ≠ 0

instance (g : Grid) : Decidable (Complete g) := by
  unfold Complete; infer_instance

/-- Every cell value is at most 9. -/
def Bounded (g : Grid) : Prop :=
  ∀ r c, g r c ≤ 9

instance (g : Grid) : Decidable (Bounded g) := by
  unfold Bounded; infer_instance

/-- `t` is a completion of the puzzle `g`: it extends `g`, fills every cell
with a value in `1..9`, and satisfies the Sudoku constraints. -/
def Completion (g t : Grid) : Prop :=
  Extends g t ∧ Complete t ∧ Bounded t ∧ ValidGrid t

instance (g t : Grid) : Decidable (Completion g t) := by
  unfold Completion; infer_instance

/-- The set of empty positions. -/
def emptySet (g : Grid) : Finset Pos :=
  Finset.univ.filter fun p => g p.1 p.2 = 0

/-- The number of empty positions. -/
def emptyCount (g : Grid) : Nat :=
  (emptySet g).card

/-- Row-major rank of a position, the scanning order of the source's nested
loops. -/
def rmIdx (p : Pos) : Nat :=
  p.1.1 * 9 + p.2.1

/-- A concrete complete conflict-free grid (the classic shifted pattern),
witnessing that the empty grid has a completion. -/
def patternGrid : Grid :=
  fun r c => (3 * (r.1 % 3) + r.1 / 3 + c.1) % 9 + 1

/-- A concrete grid whose only naked single sits at `(0, 8)`: row 0 holds
`1..8` and every other cell is empty. -/
def nsWitnessGrid : Grid :=
  fun r c => if r.1 = 0 ∧ c.1 ≤ 7 then c.1 + 1 else 0

/-- A concrete board with every highlight flag set, for exercising the
highlight transformations. -/
def cexBoard : BoardState :=
  fun _ _ =>
    { value := 0, isGiven := false, isError := false, candidates := [],
      isHighlighted := true }

/-- A concrete hint naming only the cell `(1, 1)`. -/
def cexHint : Hint :=
  { technique := .naked_single, description := "", targetCell := (1, 1),
    targetValue := 1, highlightCells := [(1, 1)], highlightRegion := none }

/-- A board with every cell empty. -/
def emptyBoard : BoardState :=
  fun _ _ =>
    { value := 0, isGiven := false, isError := false, candidates := [],
      isHighlighted := false }

/-- A hint makes progress: its target cell is empty and its target value is
non-zero (so committing it fills a cell). -/
def HintProgress (g : Grid) (h : Hint) : Prop :=
  g h.targetCell.1 h.targetCell.2 = 0 ∧ 1 ≤ h.targetValue

/-! ## Basic lemmas about positions and cell update -/

theorem mem_allPositions : ∀ p : Pos, p ∈ allPositions := by decide

theorem nodup_allPositions : allPositions.Nodup := by decide

theorem pairwise_allPositions : allPositions.Pairwise fun p q => rmIdx p < rmIdx q := by
  decide

theorem setCell_self (g : Grid) (r c : Fin 9) (n : Nat) : setCell g r c n r c = n := by
  simp [setCell]

theorem setCell_ne (g : Grid) (r c : Fin 9) (n : Nat) {r' c' : Fin 9}
    (h : ¬(r' = r ∧ c' = c)) : setCell g r c n r' c' = g r' c' := by
  simp [setCell, h]

theorem sameUnit_symm {p q : Pos} (h : SameUnit p q) : SameUnit q p := by
  obtain ⟨hne, hu⟩ := h
  refine ⟨Ne.symm hne, ?_⟩
  rcases hu with h | h | h
  · exact Or.inl h.symm
  · exact Or.inr (Or.inl h.symm)
  · exact Or.inr (Or.inr ⟨h.1.symm, h.2.symm⟩)

/-- Membership in a box in terms of integer division by 3. -/
theorem mem_getBoxCells (row col : Fin 9) (q : Pos) :
    q ∈ getBoxCells row col ↔ q.1.1 / 3 = row.1 / 3 ∧ q.2.1 / 3 = col.1 / 3 := by
  unfold getBoxCells
  simp only [List.mem_flatMap, List.mem_map, List.mem_finRange, true_and]
  constructor
  · rintro ⟨dr, dc, rfl⟩
    constructor
    · show (3 * (row.1 / 3) + dr.1) / 3 = row.1 / 3
      have := dr.isLt; omega
    · show (3 * (col.1 / 3) + dc.1) / 3 = col.1 / 3
      have := dc.isLt; omega
  · rintro ⟨h1, h2⟩
    refine ⟨⟨q.1.1 - 3 * (row.1 / 3), by have := q.1.isLt; omega⟩,
      ⟨q.2.1 - 3 * (col.1 / 3), by have := q.2.isLt; omega⟩, ?_⟩
    apply Prod.ext
    · apply Fin.ext
      show 3 * (row.1 / 3) + (q.1.1 - 3 * (row.1 / 3)) = q.1.1
      have := q.1.isLt; omega
    · apply Fin.ext
      show 3 * (col.1 / 3) + (q.2.1 - 3 * (col.1 / 3)) = q.2.1
      have := q.2.isLt; omega

/-- `isValidPlacement` holds exactly when the value is `0` or no other cell of
the same row, column or box holds the same value. -/
theorem isValidPlacement_iff (g : Grid) (row col : Fin 9) (num : Nat) :
    isValidPlacement g row col num = true ↔
      (num = 0 ∨ ∀ q : Pos, SameUnit (row, col) q → g q.1 q.2 ≠ num) := by
  unfold isValidPlacement
  by_cases h0 : num = 0
  · simp [h0]
  · simp only [h0, if_false, Bool.and_eq_true, List.all_eq_true, List.mem_finRange,
      Bool.or_eq_true, decide_eq_true_eq, true_implies, false_or]
    constructor
    · rintro ⟨⟨hrow, hcol⟩, hbox⟩ q ⟨hne, hunit⟩
      rcases hunit with h | h | h
      · rcases hrow q.2 with h1 | h1
        · exact absurd (Prod.ext h h1.symm) hne
        · intro he
          apply h1
          show g (row, col).1 q.2 = num
          rw [h]
          exact he
      · rcases hcol q.1 with h1 | h1
        · exact absurd (Prod.ext h1.symm h) hne
        · intro he
          apply h1
          show g q.1 (row, col).2 = num
          rw [h]
          exact he
      · have hq : q ∈ getBoxCells row col :=
          (mem_getBoxCells row col q).mpr ⟨h.1.symm, h.2.symm⟩
        rcases hbox q hq with ⟨hb1, hb2⟩ | hb
        · exact absurd (Prod.ext hb1.symm hb2.symm) hne
        · exact hb
    · intro h
      refine ⟨⟨?_, ?_⟩, ?_⟩
      · intro c
        by_cases hc : c = col
        · exact Or.inl hc
        · refine Or.inr (h (row, c) ⟨?_, Or.inl rfl⟩)
          intro he
          exact hc (congrArg Prod.snd he).symm
      · intro r
        by_cases hr : r = row
        · exact Or.inl hr
        · refine Or.inr (h (r, col) ⟨?_, Or.inr (Or.inl rfl)⟩)
          intro he
          exact hr (congrArg Prod.fst he).symm
      · intro p hp
        rw [mem_getBoxCells] at hp
        by_cases hpe : p.1 = row ∧ p.2 = col
        · exact Or.inl hpe
        · refine Or.inr (h p ⟨?_, Or.inr (Or.inr ⟨hp.1.symm, hp.2.symm⟩)⟩)
          intro he
          exact hpe ⟨(congrArg Prod.fst he).symm, (congrArg Prod.snd he).symm⟩

/-- A grid satisfies `ValidGrid` exactly when it has no Sudoku conflicts. -/
theorem validGrid_iff_noConflicts (g : Grid) : ValidGrid g ↔ NoConflicts g := by
  constructor
  · intro hv p q hu hp
    have := hv p.1 p.2 hp
    rw [isValidPlacement_iff] at this
    rcases this with h | h
    · exact absurd h hp
    · exact fun he => h q (by simpa using hu) he.symm
  · intro hn r c hrc
    rw [isValidPlacement_iff]
    refine Or.inr fun q hu he => ?_
    exact hn (r, c) q hu hrc he.symm

/-- Conflicts seen through `Extends`: a valid placement in an extension is a
valid placement in the base grid. -/
theorem isValidPlacement_of_extends {g t : Grid} (hext : Extends g t) (r c : Fin 9)
    (n : Nat) (h : isValidPlacement t r c n = true) : isValidPlacement g r c n = true := by
  rw [isValidPlacement_iff] at h ⊢
  by_cases h0 : n = 0
  · exact Or.inl h0
  rcases h with h | h
  · exact Or.inl h
  · refine Or.inr fun q hu he => ?_
    have ht : t q.1 q.2 = g q.1 q.2 := hext q.1 q.2 (by rw [he]; exact h0)
    exact h q hu (by rw [ht, he])

/-- Extending preserves validity of the newly placed cell: if `t` completes
`g` then the value `t` holds at an empty cell of `g` is a valid placement
in `g`. -/
theorem completion_placement {g t : Grid} (h : Completion g t) (r c : Fin 9) :
    isValidPlacement g r c (t r c) = true := by
  obtain ⟨hext, hcomp, _, hval⟩ := h
  exact isValidPlacement_of_extends hext r c (t r c) (hval r c (hcomp r c))

/-- Setting an empty cell to a valid value preserves grid validity. -/
theorem validGrid_setCell {g : Grid} (hg : ValidGrid g) {r c : Fin 9} {n : Nat}
    (h0 : g r c = 0) (hv : isValidPlacement g r c n = true) :
    ValidGrid (setCell g r c n) := by
  have hg' := (validGrid_iff_noConflicts g).mp hg
  rw [validGrid_iff_noConflicts]
  intro p q hu hp
  rw [isValidPlacement_iff] at hv
  by_cases hpe : p.1 = r ∧ p.2 = c
  · have hpv : setCell g r c n p.1 p.2 = n := by rw [hpe.1, hpe.2, setCell_self]
    rw [hpv] at hp ⊢
    have hqe : ¬(q.1 = r ∧ q.2 = c) := fun hqe =>
      hu.1 (Prod.ext (hpe.1.trans hqe.1.symm) (hpe.2.trans hqe.2.symm))
    rw [setCell_ne g r c n hqe]
    rcases hv with h | hv
    · exact absurd h hp
    · have hup : SameUnit (r, c) q := by
        have hpq : p = (r, c) := Prod.ext hpe.1 hpe.2
        rw [hpq] at hu
        exact hu
      exact fun he => hv q hup he.symm
  · have hpv : setCell g r c n p.1 p.2 = g p.1 p.2 := setCell_ne g r c n hpe
    rw [hpv] at hp ⊢
    by_cases hqe : q.1 = r ∧ q.2 = c
    · have hqv : setCell g r c n q.1 q.2 = n := by rw [hqe.1, hqe.2, setCell_self]
      rw [hqv]
      rcases hv with h | hv
      · rw [h]
        exact hp
      · have hup : SameUnit (r, c) p := by
          have hpq : q = (r, c) := Prod.ext hqe.1 hqe.2
          rw [hpq] at hu
          exact sameUnit_symm hu
        exact hv p hup
    · rw [setCell_ne g r c n hqe]
      exact hg' p q hu hp

/-! ## Empty-cell accounting -/

theorem firstEmpty_eq_none_iff (g : Grid) : firstEmpty g = none ↔ Complete g := by
  unfold firstEmpty Complete
  rw [List.find?_eq_none]
  constructor
  · intro h r c
    simpa using h (r, c) (mem_allPositions (r, c))
  · intro h p _
    simpa using h p.1 p.2

theorem firstEmpty_some_empty {g : Grid} {p : Pos} (h : firstEmpty g = some p) :
    g p.1 p.2 = 0 := by
  simpa using List.find?_some h

theorem emptyCount_le_81 (g : Grid) : emptyCount g ≤ 81 := by
  unfold emptyCount emptySet
  calc (Finset.univ.filter fun p : Pos => g p.1 p.2 = 0).card
      ≤ Finset.univ.card := Finset.card_filter_le _ _
    _ = 81 := by simp

theorem emptyCount_setCell {g : Grid} {r c : Fin 9} {n : Nat} (h0 : g r c = 0)
    (hn : n ≠ 0) : emptyCount (setCell g r c n) + 1 = emptyCount g := by
  unfold emptyCount
  have hset : emptySet (setCell g r c n) = (emptySet g).erase (r, c) := by
    unfold emptySet
    ext q
    simp only [Finset.mem_filter, Finset.mem_univ, true_and, Finset.mem_erase]
    constructor
    · intro hq
      by_cases hqe : q.1 = r ∧ q.2 = c
      · rw [hqe.1, hqe.2, setCell_self] at hq
        exact absurd hq hn
      · rw [setCell_ne g r c n hqe] at hq
        refine ⟨fun he => hqe ?_, hq⟩
        rw [he]
        exact ⟨rfl, rfl⟩
    · rintro ⟨hne, hq⟩
      have hqe : ¬(q.1 = r ∧ q.2 = c) := fun hqe => hne (Prod.ext hqe.1 hqe.2)
      rw [setCell_ne g r c n hqe]
      exact hq
  have hmem : ((r, c) : Pos) ∈ emptySet g := by simp [emptySet, h0]
  rw [hset, Finset.card_erase_of_mem hmem]
  have hpos : 0 < (emptySet g).card := Finset.card_pos.mpr ⟨_, hmem⟩
  omega

theorem validGrid_setZero {g : Grid} (hg : ValidGrid g) (r c : Fin 9) :
    ValidGrid (setCell g r c 0) := by
  have hg' := (validGrid_iff_noConflicts g).mp hg
  rw [validGrid_iff_noConflicts]
  intro p q hu hp
  by_cases hpe : p.1 = r ∧ p.2 = c
  · rw [hpe.1, hpe.2, setCell_self] at hp
    exact absurd rfl hp
  · rw [setCell_ne g r c 0 hpe] at hp ⊢
    by_cases hqe : q.1 = r ∧ q.2 = c
    · rw [hqe.1, hqe.2, setCell_self]
      exact hp
    · rw [setCell_ne g r c 0 hqe]
      exact hg' p q hu hp

theorem extends_refl (g : Grid) : Extends g g := fun _ _ _ => rfl

theorem extends_trans {a b t : Grid} (hab : Extends a b) (hbt : Extends b t) :
    Extends a t := by
  intro r c h
  have h1 : b r c = a r c := hab r c h
  have h2 : t r c = b r c := hbt r c (by rw [h1]; exact h)
  rw [h2, h1]

theorem extends_setCell_of_empty {g : Grid} {r c : Fin 9} (h0 : g r c = 0) (n : Nat) :
    Extends g (setCell g r c n) := by
  intro r' c' h
  have : ¬(r' = r ∧ c' = c) := by
    rintro ⟨rfl, rfl⟩
    exact h h0
  rw [setCell_ne g r c n this]

theorem extends_setZero {g s : Grid} (h : Extends g s) (r c : Fin 9) :
    Extends (setCell g r c 0) s := by
  intro r' c' hne
  by_cases he : r' = r ∧ c' = c
  · rw [he.1, he.2, setCell_self] at hne
    exact absurd rfl hne
  · rw [setCell_ne g r c 0 he] at hne ⊢
    exact h r' c' hne

theorem bounded_setCell {g : Grid} (h : Bounded g) {r c : Fin 9} {n : Nat}
    (hn : n ≤ 9) : Bounded (setCell g r c n) := by
  intro r' c'
  by_cases he : r' = r ∧ c' = c
  · rw [he.1, he.2, setCell_self]
    exact hn
  · rw [setCell_ne g r c n he]
    exact h r' c'

/-! ## The solution counter

`countSolutions` explores every valid completion of the puzzle in digit order,
so two distinct completions force the count to reach `2`; this is the
completeness fact behind the carve step's uniqueness invariant. -/

theorem completion_eq_of_complete {g t : Grid} (hc : Complete g)
    (h : Completion g t) : t = g := by
  funext r c
  exact h.1 r c (hc r c)

theorem completion_setCell {g t : Grid} (h : Completion g t) {r c : Fin 9}
    (h0 : g r c = 0) : Completion (setCell g r c (t r c)) t := by
  obtain ⟨hext, hcomp, hbd, hval⟩ := h
  refine ⟨?_, hcomp, hbd, hval⟩
  intro r' c' hne
  by_cases he : r' = r ∧ c' = c
  · rw [he.1, he.2, setCell_self]
  · rw [setCell_ne g r c (t r c) he] at hne ⊢
    exact hext r' c' hne

theorem mem_digits {n : Nat} (h1 : 1 ≤ n) (h9 : n ≤ 9) :
    n ∈ ([1, 2, 3, 4, 5, 6, 7, 8, 9] : List Nat) := by
  simp only [List.mem_cons, List.not_mem_nil, or_false]
  omega

theorem countAux_complete {g : Grid} (hc : Complete g) (fuel cnt : Nat)
    (hcnt : cnt ≤ 1) : countSolutionsAux (fuel + 1) g cnt = cnt + 1 := by
  simp only [countSolutionsAux]
  rw [if_neg (by omega), (firstEmpty_eq_none_iff g).mpr hc]

theorem digitFold_mono (rec : Grid → Nat → Nat) (hmono : ∀ g' x, x ≤ rec g' x)
    (g : Grid) (r c : Fin 9) :
    ∀ (L : List Nat) (cnt : Nat), cnt ≤ digitFold rec g r c L cnt := by
  intro L
  induction L with
  | nil =>
    intro cnt
    simp [digitFold]
  | cons n rest ih =>
    intro cnt
    simp only [digitFold]
    by_cases hv : isValidPlacement g r c n = true
    · rw [if_pos hv]
      exact le_trans (hmono _ _) (ih _)
    · rw [if_neg hv]
      exact ih _

theorem countAux_mono : ∀ (fuel : Nat) (g : Grid) (cnt : Nat),
    cnt ≤ countSolutionsAux fuel g cnt := by
  intro fuel
  induction fuel with
  | zero =>
    intro g cnt
    simp [countSolutionsAux]
  | succ fuel ih =>
    intro g cnt
    simp only [countSolutionsAux]
    by_cases h2 : 1 < cnt
    · rw [if_pos h2]
    · rw [if_neg h2]
      cases hfe : firstEmpty g with
      | none =>
        show cnt ≤ cnt + 1
        omega
      | some p => exact digitFold_mono _ (fun g' x => ih g' x) g p.1 p.2 _ cnt

/-- Fold lower bound from one witnessing digit whose recursive count adds
at least `k` (capped at 2). -/
theorem digitFold_one (rec : Grid → Nat → Nat) (hmono : ∀ g' x, x ≤ rec g' x)
    (g : Grid) (r c : Fin 9) (n k : Nat)
    (hrec : ∀ x, min (x + k) 2 ≤ rec (setCell g r c n) x)
    (hv : isValidPlacement g r c n = true) :
    ∀ (L : List Nat), n ∈ L → ∀ cnt, min (cnt + k) 2 ≤ digitFold rec g r c L cnt := by
  intro L
  induction L with
  | nil =>
    intro h
    exact absurd h (List.not_mem_nil n)
  | cons m rest ih =>
    intro hmem cnt
    rw [List.mem_cons] at hmem
    simp only [digitFold]
    by_cases he : m = n
    · subst he
      rw [if_pos hv]
      exact le_trans (hrec cnt) (digitFold_mono rec hmono g r c rest _)
    · have hmem' : n ∈ rest := by
        rcases hmem with h | h
        · exact absurd h.symm he
        · exact h
      have hstep : cnt ≤ (if isValidPlacement g r c m = true
          then rec (setCell g r c m) cnt else cnt) := by
        by_cases hvm : isValidPlacement g r c m = true
        · rw [if_pos hvm]
          exact hmono _ _
        · rw [if_neg hvm]
      refine le_trans ?_ (ih hmem' _)
      omega

/-- Fold lower bound from two distinct witnessing digits, each adding at
least one solution. -/
theorem digitFold_two (rec : Grid → Nat → Nat) (hmono : ∀ g' x, x ≤ rec g' x)
    (g : Grid) (r c : Fin 9) (n1 n2 : Nat) (hne : n1 ≠ n2)
    (hv1 : isValidPlacement g r c n1 = true) (hv2 : isValidPlacement g r c n2 = true)
    (h1 : ∀ x, min (x + 1) 2 ≤ rec (setCell g r c n1) x)
    (h2 : ∀ x, min (x + 1) 2 ≤ rec (setCell g r c n2) x) :
    ∀ (L : List Nat), n1 ∈ L → n2 ∈ L → ∀ cnt,
      min (cnt + 2) 2 ≤ digitFold rec g r c L cnt := by
  intro L
  induction L with
  | nil =>
    intro h
    exact absurd h (List.not_mem_nil n1)
  | cons m rest ih =>
    intro hm1 hm2 cnt
    rw [List.mem_cons] at hm1 hm2
    simp only [digitFold]
    by_cases he1 : m = n1
    · subst he1
      rw [if_pos hv1]
      have hrest : n2 ∈ rest := by
        rcases hm2 with h | h
        · exact absurd h.symm hne
        · exact h
      have := digitFold_one rec hmono g r c n2 1 h2 hv2 rest hrest
        (rec (setCell g r c m) cnt)
      have hbase := h1 cnt
      refine le_trans ?_ (this)
      omega
    · by_cases he2 : m = n2
      · subst he2
        rw [if_pos hv2]
        have hrest : n1 ∈ rest := by
          rcases hm1 with h | h
          · exact absurd h.symm (fun hh => hne hh.symm)
          · exact h
        have := digitFold_one rec hmono g r c n1 1 h1 hv1 rest hrest
          (rec (setCell g r c m) cnt)
        have hbase := h2 cnt
        refine le_trans ?_ (this)
        omega
      · have hr1 : n1 ∈ rest := by
          rcases hm1 with h | h
          · exact absurd h.symm he1
          · exact h
        have hr2 : n2 ∈ rest := by
          rcases hm2 with h | h
          · exact absurd h.symm he2
          · exact h
        have hstep : cnt ≤ (if isValidPlacement g r c m = true
            then rec (setCell g r c m) cnt else cnt) := by
          by_cases hvm : isValidPlacement g r c m = true
          · rw [if_pos hvm]
            exact hmono _ _
          · rw [if_neg hvm]
        refine le_trans ?_ (ih hr1 hr2 _)
        omega

/-- One completion forces the counter to add at least one solution. -/
theorem countAux_one : ∀ (fuel : Nat) {g t : Grid}, Completion g t →
    emptyCount g < fuel → ∀ cnt, min (cnt + 1) 2 ≤ countSolutionsAux fuel g cnt := by
  intro fuel
  induction fuel with
  | zero =>
    intro g t _ hlt
    omega
  | succ fuel ih =>
    intro g t ht hlt cnt
    simp only [countSolutionsAux]
    by_cases h2 : 1 < cnt
    · rw [if_pos h2]
      omega
    · rw [if_neg h2]
      cases hfe : firstEmpty g with
      | none =>
        show min (cnt + 1) 2 ≤ cnt + 1
        omega
      | some p =>
        have h0 : g p.1 p.2 = 0 := firstEmpty_some_empty hfe
        set n := t p.1 p.2 with hn
        have hv : isValidPlacement g p.1 p.2 n = true := completion_placement ht p.1 p.2
        have hn1 : 1 ≤ n := by
          have := ht.2.1 p.1 p.2
          omega
        have hn9 : n ≤ 9 := ht.2.2.1 p.1 p.2
        have hcount : emptyCount (setCell g p.1 p.2 n) < fuel := by
          have := emptyCount_setCell h0 (by omega : n ≠ 0)
          omega
        exact digitFold_one _ (fun g' x => countAux_mono fuel g' x) g p.1 p.2 n 1
          (fun x => ih (completion_setCell ht h0) hcount x) hv _ (mem_digits hn1 hn9) cnt

/-- Two distinct completions force the counter to reach `2`: the exhaustive
search with early exit cannot miss a second solution. -/
theorem countAux_two : ∀ (fuel : Nat) {g t1 t2 : Grid}, Completion g t1 →
    Completion g t2 → t1 ≠ t2 → emptyCount g < fuel →
    ∀ cnt, min (cnt + 2) 2 ≤ countSolutionsAux fuel g cnt := by
  intro fuel
  induction fuel with
  | zero =>
    intro g t1 t2 _ _ _ hlt
    omega
  | succ fuel ih =>
    intro g t1 t2 ht1 ht2 hne hlt cnt
    simp only [countSolutionsAux]
    by_cases h2 : 1 < cnt
    · rw [if_pos h2]
      omega
    · rw [if_neg h2]
      cases hfe : firstEmpty g with
      | none =>
        exfalso
        have hc : Complete g := (firstEmpty_eq_none_iff g).mp hfe
        rw [completion_eq_of_complete hc ht1, completion_eq_of_complete hc ht2] at hne
        exact hne rfl
      | some p =>
        have h0 : g p.1 p.2 = 0 := firstEmpty_some_empty hfe
        have hv1 : isValidPlacement g p.1 p.2 (t1 p.1 p.2) = true :=
          completion_placement ht1 p.1 p.2
        have hv2 : isValidPlacement g p.1 p.2 (t2 p.1 p.2) = true :=
          completion_placement ht2 p.1 p.2
        have hb1 : 1 ≤ t1 p.1 p.2 := by
          have := ht1.2.1 p.1 p.2
          omega
        have hb9 : t1 p.1 p.2 ≤ 9 := ht1.2.2.1 p.1 p.2
        have hc1 : 1 ≤ t2 p.1 p.2 := by
          have := ht2.2.1 p.1 p.2
          omega
        have hc9 : t2 p.1 p.2 ≤ 9 := ht2.2.2.1 p.1 p.2
        have hcount1 : emptyCount (setCell g p.1 p.2 (t1 p.1 p.2)) < fuel := by
          have := emptyCount_setCell h0 (by omega : t1 p.1 p.2 ≠ 0)
          omega
        have hcount2 : emptyCount (setCell g p.1 p.2 (t2 p.1 p.2)) < fuel := by
          have := emptyCount_setCell h0 (by omega : t2 p.1 p.2 ≠ 0)
          omega
        by_cases hsame : t1 p.1 p.2 = t2 p.1 p.2
        · -- the two completions already diverge below this digit
          have ht2' : Completion (setCell g p.1 p.2 (t1 p.1 p.2)) t2 := by
            rw [hsame]
            exact completion_setCell ht2 h0
          exact digitFold_one _ (fun g' x => countAux_mono fuel g' x) g p.1 p.2
            (t1 p.1 p.2) 2
            (fun x => ih (completion_setCell ht1 h0) ht2' hne hcount1 x) hv1 _
            (mem_digits hb1 hb9) cnt
        · exact digitFold_two _ (fun g' x => countAux_mono fuel g' x) g p.1 p.2
            (t1 p.1 p.2) (t2 p.1 p.2) hsame hv1 hv2
            (fun x => countAux_one fuel (completion_setCell ht1 h0) hcount1 x)
            (fun x => countAux_one fuel (completion_setCell ht2 h0) hcount2 x) _
            (mem_digits hb1 hb9) (mem_digits hc1 hc9) cnt

/-- If the bounded search reports a unique solution and `solution` completes
the puzzle, then `solution` is the only completion. -/
theorem unique_completion {puzzle solution : Grid}
    (hsol : Completion puzzle solution) (hcs : countSolutions puzzle = 1) :
    ∀ t, Completion puzzle t → t = solution := by
  intro t ht
  by_contra hne
  have hlt : emptyCount puzzle < 82 := by
    have := emptyCount_le_81 puzzle
    omega
  have h2 := countAux_two 82 ht hsol hne hlt 0
  unfold countSolutions at hcs
  omega

/-! ## The Fisher-Yates shuffle is a permutation -/

theorem countP_swapAt {α : Type} (p : α → Bool) (l : List α) (a b : Nat) :
    (swapAt l a b).countP p = l.countP p := by
  cases ha : l[a]? with
  | none =>
    unfold swapAt
    rw [ha]
  | some x =>
    cases hb : l[b]? with
    | none =>
      unfold swapAt
      rw [ha, hb]
    | some y =>
      have hred : swapAt l a b = (l.set a y).set b x := by
        unfold swapAt
        rw [ha, hb]
      rw [hred]
      obtain ⟨hal, hxa⟩ := List.getElem?_eq_some_iff.mp ha
      obtain ⟨hbl, hyb⟩ := List.getElem?_eq_some_iff.mp hb
      by_cases hab : a = b
      · subst hab
        rw [List.set_set]
        have hxy : x = y := by rw [← hxa, ← hyb]
        rw [List.countP_set _ _ _ _ hal, hxa, hxy]
        have := List.boole_getElem_le_countP p l a hal
        rw [hxa, hxy] at this
        omega
      · have hbl2 : b < (l.set a y).length := by
          rw [List.length_set]
          exact hbl
        rw [List.countP_set _ _ _ _ hbl2, List.countP_set _ _ _ _ hal]
        have hget : (l.set a y)[b] = l[b] := List.getElem_set_ne hab hbl2
        rw [hget, hxa, hyb]
        have h1 := List.boole_getElem_le_countP p l a hal
        have h2 := List.boole_getElem_le_countP p l b hbl
        rw [hxa] at h1
        rw [hyb] at h2
        omega

theorem swapAt_perm {α : Type} [DecidableEq α] (l : List α) (a b : Nat) :
    (swapAt l a b).Perm l := by
  rw [List.perm_iff_count]
  intro x
  rw [List.count_eq_countP, List.count_eq_countP]
  exact countP_swapAt _ l a b

theorem fyLoop_perm {α : Type} [DecidableEq α] (σ : Nat → Nat) :
    ∀ (i k : Nat) (l : List α), (fyLoop σ i k l).1.Perm l := by
  intro i
  induction i with
  | zero =>
    intro k l
    simp [fyLoop]
  | succ i ih =>
    intro k l
    simp only [fyLoop]
    exact (ih _ _).trans (swapAt_perm _ _ _)

theorem shuffleArray_perm {α : Type} [DecidableEq α] (σ : Nat → Nat) (k : Nat)
    (l : List α) : (shuffleArray σ k l).1.Perm l :=
  fyLoop_perm σ _ k l

theorem mem_shuffled_digits (σ : Nat → Nat) (k : Nat) (n : Nat) :
    n ∈ (shuffleArray σ k [1, 2, 3, 4, 5, 6, 7, 8, 9]).1 ↔
      n ∈ ([1, 2, 3, 4, 5, 6, 7, 8, 9] : List Nat) :=
  (shuffleArray_perm σ k _).mem_iff

/-! ## The backtracking fill -/

theorem tryDigits_some {next : Nat → Grid → Option Grid × Nat} {g : Grid}
    {r c : Fin 9} : ∀ (L : List Nat) (k : Nat) {g' : Grid} {k' : Nat},
    tryDigits next g r c k L = (some g', k') →
    ∃ n ∈ L, isValidPlacement g r c n = true ∧
      ∃ k1, next k1 (setCell g r c n) = (some g', k') := by
  intro L
  induction L with
  | nil =>
    intro k g' k' h
    simp [tryDigits] at h
  | cons n rest ih =>
    intro k g' k' h
    simp only [tryDigits] at h
    by_cases hv : isValidPlacement g r c n = true
    · rw [if_pos hv] at h
      cases hnx : next k (setCell g r c n) with
      | mk og k2 =>
        rw [hnx] at h
        cases og with
        | some gg =>
          have h2 : ((some gg : Option Grid), k2) = (some g', k') := h
          have hg : gg = g' := by
            have := congrArg Prod.fst h2
            simpa using this
          have hk : k2 = k' := congrArg Prod.snd h2
          refine ⟨n, List.mem_cons_self n rest, hv, k, ?_⟩
          rw [hnx, hg, hk]
        | none =>
          have h2 : tryDigits next g r c k2 rest = (some g', k') := h
          obtain ⟨m, hm, hv2, k1, hk1⟩ := ih k2 h2
          exact ⟨m, List.mem_cons_of_mem n hm, hv2, k1, hk1⟩
    · rw [if_neg hv] at h
      obtain ⟨m, hm, hv2, k1, hk1⟩ := ih k h
      exact ⟨m, List.mem_cons_of_mem n hm, hv2, k1, hk1⟩

theorem tryDigits_succeeds {next : Nat → Grid → Option Grid × Nat} {g : Grid}
    {r c : Fin 9} {n : Nat} (hv : isValidPlacement g r c n = true)
    (hsucc : ∀ k1, (next k1 (setCell g r c n)).1.isSome = true) :
    ∀ (L : List Nat), n ∈ L → ∀ k, (tryDigits next g r c k L).1.isSome = true := by
  intro L
  induction L with
  | nil =>
    intro h
    exact absurd h (List.not_mem_nil n)
  | cons m rest ih =>
    intro hmem k
    rw [List.mem_cons] at hmem
    simp only [tryDigits]
    by_cases hvm : isValidPlacement g r c m = true
    · rw [if_pos hvm]
      cases hnx : next k (setCell g r c m) with
      | mk og k2 =>
        cases og with
        | some gg => simp
        | none =>
          by_cases he : m = n
          · exfalso
            have hs := hsucc k
            rw [he] at hnx
            rw [hnx] at hs
            simp at hs
          · have hmem2 : n ∈ rest := by
              rcases hmem with h | h
              · exact absurd h.symm he
              · exact h
            exact ih hmem2 k2
    · rw [if_neg hvm]
      have he : m ≠ n := fun he => hvm (he ▸ hv)
      have hmem2 : n ∈ rest := by
        rcases hmem with h | h
        · exact absurd h.symm (fun hh => he hh)
        · exact h
      exact ih hmem2 k

theorem fillGridAux_sound (σ : Nat → Nat) : ∀ (fuel k : Nat) {g g' : Grid} {k' : Nat},
    ValidGrid g → Bounded g → fillGridAux σ fuel k g = (some g', k') →
    Completion g g' := by
  intro fuel
  induction fuel with
  | zero =>
    intro k g g' k' _ _ h
    simp [fillGridAux] at h
  | succ fuel ih =>
    intro k g g' k' hval hbd h
    simp only [fillGridAux] at h
    cases hfe : firstEmpty g with
    | none =>
      rw [hfe] at h
      have h2 : ((some g : Option Grid), k) = (some g', k') := h
      have hg : g = g' := by
        have := congrArg Prod.fst h2
        simpa using this
      subst hg
      exact ⟨extends_refl g, (firstEmpty_eq_none_iff g).mp hfe, hbd, hval⟩
    | some p =>
      rw [hfe] at h
      obtain ⟨n, hmem, hv, k1, hk1⟩ := tryDigits_some _ _ h
      have h0 : g p.1 p.2 = 0 := firstEmpty_some_empty hfe
      rw [mem_shuffled_digits] at hmem
      have hn9 : n ≤ 9 := by
        simp only [List.mem_cons, List.not_mem_nil, or_false] at hmem
        omega
      have hcmp : Completion (setCell g p.1 p.2 n) g' :=
        ih k1 (validGrid_setCell hval h0 hv) (bounded_setCell hbd hn9) hk1
      obtain ⟨hext, hcomp, hbd2, hval2⟩ := hcmp
      exact ⟨extends_trans (extends_setCell_of_empty h0 n) hext, hcomp, hbd2, hval2⟩

theorem fillGridAux_complete (σ : Nat → Nat) : ∀ (fuel : Nat) {g : Grid},
    ValidGrid g → Bounded g → (∃ t, Completion g t) → emptyCount g < fuel →
    ∀ k, (fillGridAux σ fuel k g).1.isSome = true := by
  intro fuel
  induction fuel with
  | zero =>
    intro g _ _ _ hlt
    omega
  | succ fuel ih =>
    intro g hval hbd hex hlt k
    simp only [fillGridAux]
    cases hfe : firstEmpty g with
    | none => simp
    | some p =>
      obtain ⟨t, ht⟩ := hex
      have h0 : g p.1 p.2 = 0 := firstEmpty_some_empty hfe
      have hv : isValidPlacement g p.1 p.2 (t p.1 p.2) = true :=
        completion_placement ht p.1 p.2
      have hn1 : 1 ≤ t p.1 p.2 := by
        have := ht.2.1 p.1 p.2
        omega
      have hn9 : t p.1 p.2 ≤ 9 := ht.2.2.1 p.1 p.2
      have hcount : emptyCount (setCell g p.1 p.2 (t p.1 p.2)) < fuel := by
        have := emptyCount_setCell h0 (by omega : t p.1 p.2 ≠ 0)
        omega
      refine tryDigits_succeeds hv ?_ _ ?_ _
      · intro k1
        exact ih (validGrid_setCell hval h0 hv) (bounded_setCell hbd hn9)
          ⟨t, completion_setCell ht h0⟩ hcount k1
      · rw [mem_shuffled_digits]
        exact mem_digits hn1 hn9

theorem validGrid_empty : ValidGrid createEmptyGrid :=
  fun _ _ h => absurd rfl h

theorem bounded_empty : Bounded createEmptyGrid :=
  fun _ _ => Nat.zero_le 9

/-- The classic shifted pattern completes the empty grid: filling is always
possible. -/
theorem pattern_completion : Completion createEmptyGrid patternGrid := by decide

/-- `generateCompleteGrid` cannot fail: the backtracking fill returns `true`
and the resulting grid is a completion of the empty grid. -/
theorem generateCompleteGrid_spec (σ : Nat → Nat) (k : Nat) :
    fillGridAux σ 82 k createEmptyGrid
        = (some (generateCompleteGrid σ k).1, (generateCompleteGrid σ k).2) ∧
      Completion createEmptyGrid (generateCompleteGrid σ k).1 := by
  have hlt : emptyCount createEmptyGrid < 82 := by
    have := emptyCount_le_81 createEmptyGrid
    omega
  have hsome := fillGridAux_complete σ 82 validGrid_empty bounded_empty
    ⟨patternGrid, pattern_completion⟩ hlt k
  cases hfe : fillGridAux σ 82 k createEmptyGrid with
  | mk og k2 =>
    cases og with
    | none =>
      rw [hfe] at hsome
      simp at hsome
    | some g0 =>
      have hpair : generateCompleteGrid σ k = (g0, k2) := by
        unfold generateCompleteGrid
        rw [hfe]
      rw [hpair]
      exact ⟨rfl, fillGridAux_sound σ 82 k validGrid_empty bounded_empty hfe⟩

/-! ## Clue counting -/

theorem countP_agree_of_not_mem {α : Type} (p p' : α → Bool) (a : α)
    (h : ∀ q, q ≠ a → p q = p' q) (l : List α) (ha : a ∉ l) :
    l.countP p = l.countP p' := by
  apply List.countP_congr
  intro q hq
  rw [h q (fun he => ha (he ▸ hq))]

theorem countP_le_succ_of_agree_except {α : Type} (p p' : α → Bool) (a : α)
    (h : ∀ q, q ≠ a → p q = p' q) :
    ∀ (l : List α), l.Nodup → l.countP p ≤ l.countP p' + 1 := by
  intro l
  induction l with
  | nil =>
    intro _
    simp
  | cons x xs ih =>
    intro hnd
    rw [List.nodup_cons] at hnd
    rw [List.countP_cons, List.countP_cons]
    by_cases hx : x = a
    · subst hx
      have heq : xs.countP p = xs.countP p' :=
        countP_agree_of_not_mem p p' x h xs hnd.1
      have hle : (if p x then 1 else 0) ≤ 1 := by
        by_cases hp : p x = true
        · rw [if_pos hp]
        · rw [if_neg hp]
          omega
      omega
    · have hpx : p x = p' x := h x hx
      have := ih hnd.2
      rw [hpx]
      omega

theorem countClues_setZero (g : Grid) (r c : Fin 9) :
    countClues g ≤ countClues (setCell g r c 0) + 1 := by
  unfold countClues
  rw [← List.countP_eq_length_filter, ← List.countP_eq_length_filter]
  apply countP_le_succ_of_agree_except _ _ ((r, c) : Pos) _ allPositions nodup_allPositions
  intro q hq
  have hne : ¬(q.1 = r ∧ q.2 = c) := fun he => hq (Prod.ext he.1 he.2)
  rw [setCell_ne g r c 0 hne]

theorem countClues_complete {g : Grid} (hc : Complete g) : countClues g = 81 := by
  unfold countClues
  rw [List.filter_eq_self.mpr]
  · decide
  · intro p _
    simpa using hc p.1 p.2

theorem hasUniqueSolution_of_complete {g : Grid} (hc : Complete g) :
    hasUniqueSolution g = true := by
  unfold hasUniqueSolution countSolutions
  have h := countAux_complete hc 81 0 (by omega)
  have h82 : (81 : Nat) + 1 = 82 := rfl
  rw [h82] at h
  rw [h]
  rfl

theorem countSolutions_eq_one {g : Grid} (h : hasUniqueSolution g = true) :
    countSolutions g = 1 := by
  unfold hasUniqueSolution at h
  rw [beq_iff_eq] at h
  exact h

/-! ## The carve step -/

theorem carveLoop_spec (target : Nat) (sol : Grid) :
    ∀ (L : List Pos) (puzzle : Grid) (removed : Nat),
      hasUniqueSolution puzzle = true → Extends puzzle sol → ValidGrid puzzle →
      Bounded puzzle → removed ≤ target → 81 ≤ countClues puzzle + removed →
      hasUniqueSolution (carveLoop target L puzzle removed).1 = true ∧
        Extends (carveLoop target L puzzle removed).1 sol ∧
        ValidGrid (carveLoop target L puzzle removed).1 ∧
        Bounded (carveLoop target L puzzle removed).1 ∧
        (carveLoop target L puzzle removed).2 ≤ target ∧
        81 ≤ countClues (carveLoop target L puzzle removed).1 +
          (carveLoop target L puzzle removed).2 := by
  intro L
  induction L with
  | nil =>
    intro puzzle removed h1 h2 h3 h4 h5 h6
    simp only [carveLoop]
    exact ⟨h1, h2, h3, h4, h5, h6⟩
  | cons p rest ih =>
    intro puzzle removed h1 h2 h3 h4 h5 h6
    simp only [carveLoop]
    by_cases hbr : target ≤ removed
    · rw [if_pos hbr]
      exact ⟨h1, h2, h3, h4, h5, h6⟩
    · rw [if_neg hbr]
      by_cases hu : hasUniqueSolution (setCell puzzle p.1 p.2 0) = true
      · rw [if_pos hu]
        apply ih
        · exact hu
        · exact extends_setZero h2 p.1 p.2
        · exact validGrid_setZero h3 p.1 p.2
        · exact bounded_setCell h4 (by omega)
        · omega
        · have := countClues_setZero puzzle p.1 p.2
          omega
      · rw [if_neg hu]
        exact ih puzzle removed h1 h2 h3 h4 (by omega) h6

theorem removeCells_spec (σ : Nat → Nat) (k : Nat) {sol : Grid}
    (difficulty : Difficulty) (hc : Complete sol) (hv : ValidGrid sol)
    (hb : Bounded sol) :
    hasUniqueSolution (removeCells σ k sol difficulty).1 = true ∧
      Extends (removeCells σ k sol difficulty).1 sol ∧
      ValidGrid (removeCells σ k sol difficulty).1 ∧
      Bounded (removeCells σ k sol difficulty).1 ∧
      (removeCells σ k sol difficulty).2.1 ≤ targetRemoved difficulty ∧
      81 ≤ countClues (removeCells σ k sol difficulty).1 +
        (removeCells σ k sol difficulty).2.1 := by
  have h := carveLoop_spec (targetRemoved difficulty) sol
    (shuffleArray σ k allPositions).1 sol 0
    (hasUniqueSolution_of_complete hc) (extends_refl sol) hv hb (Nat.zero_le _)
    (by have := countClues_complete hc; omega)
  simp only [removeCells]
  exact h

/-! ## The generator loop -/

/-- One fill-and-carve attempt yields a puzzle/solution pair satisfying the
generator invariants. -/
theorem genPair_spec (σ : Nat → Nat) (difficulty : Difficulty) (k : Nat) :
    (Completion
        (removeCells σ (generateCompleteGrid σ k).2 (generateCompleteGrid σ k).1
          difficulty).1
        (generateCompleteGrid σ k).1 ∧
      hasUniqueSolution
        (removeCells σ (generateCompleteGrid σ k).2 (generateCompleteGrid σ k).1
          difficulty).1 = true) ∧
      81 ≤ countClues
          (removeCells σ (generateCompleteGrid σ k).2 (generateCompleteGrid σ k).1
            difficulty).1 + targetRemoved difficulty := by
  obtain ⟨-, hcmp⟩ := generateCompleteGrid_spec σ k
  obtain ⟨-, hcomp, hbd, hval⟩ := hcmp
  obtain ⟨hu, hext, hvalp, hbdp, hrem, hclue⟩ :=
    removeCells_spec σ (generateCompleteGrid σ k).2 difficulty hcomp hval hbd
  exact ⟨⟨⟨hext, hcomp, hbd, hval⟩, hu⟩, by omega⟩

theorem genLoop_spec (σ : Nat → Nat) (difficulty : Difficulty) :
    ∀ (fuel attempt k : Nat),
      (Completion (genLoop σ difficulty fuel attempt k).puzzle
          (genLoop σ difficulty fuel attempt k).solution ∧
        hasUniqueSolution (genLoop σ difficulty fuel attempt k).puzzle = true) ∧
      81 ≤ countClues (genLoop σ difficulty fuel attempt k).puzzle
            + targetRemoved difficulty := by
  intro fuel
  induction fuel with
  | zero =>
    intro attempt k
    simp only [genLoop]
    exact genPair_spec σ difficulty k
  | succ fuel ih =>
    intro attempt k
    simp only [genLoop]
    by_cases h1 : difficulty = Difficulty.easy ∨ 10 < attempt
    · rw [if_pos h1]
      dsimp only
      exact genPair_spec σ difficulty k
    · rw [if_neg h1]
      by_cases h2 : verifyDifficulty
          (removeCells σ (generateCompleteGrid σ k).2 (generateCompleteGrid σ k).1
            difficulty).1 difficulty = true
      · rw [if_pos h2]
        dsimp only
        exact genPair_spec σ difficulty k
      · rw [if_neg h2]
        exact ih (attempt + 1) _

theorem generatePuzzle_spec (difficulty : Difficulty) (σ : Nat → Nat) :
    (Completion (generatePuzzle difficulty σ).puzzle
        (generatePuzzle difficulty σ).solution ∧
      hasUniqueSolution (generatePuzzle difficulty σ).puzzle = true) ∧
    81 ≤ countClues (generatePuzzle difficulty σ).puzzle + targetRemoved difficulty :=
  genLoop_spec σ difficulty 100 1 0

theorem carveLoop_removed_le (target : Nat) :
    ∀ (L : List Pos) (puzzle : Grid) (removed : Nat), removed ≤ target →
      (carveLoop target L puzzle removed).2 ≤ target := by
  intro L
  induction L with
  | nil =>
    intro puzzle removed h
    simpa [carveLoop] using h
  | cons p rest ih =>
    intro puzzle removed h
    simp only [carveLoop]
    by_cases hbr : target ≤ removed
    · rw [if_pos hbr]
      exact h
    · rw [if_neg hbr]
      by_cases hu : hasUniqueSolution (setCell puzzle p.1 p.2 0) = true
      · rw [if_pos hu]
        exact ih _ _ (by omega)
      · rw [if_neg hu]
        exact ih _ _ h

theorem removeCells_removed_le (σ : Nat → Nat) (k : Nat) (sol : Grid)
    (difficulty : Difficulty) :
    (removeCells σ k sol difficulty).2.1 ≤ targetRemoved difficulty := by
  simp only [removeCells]
  exact carveLoop_removed_le _ _ _ _ (Nat.zero_le _)

/-! ## Claim theorems -/

/-- **C1.** For every difficulty (and every random stream), `generatePuzzle`
returns a pair whose puzzle agrees with the solution on every non-zero cell
(part of `Completion`), whose bounded solution count is exactly one
(`countSolutions(puzzle) == 1`), and whose set of completions under the
standard row/column/box constraints is exactly the returned solution. -/
theorem generatePuzzle_unique_solution (difficulty : Difficulty) (σ : Nat → Nat) :
    Completion (generatePuzzle difficulty σ).puzzle
        (generatePuzzle difficulty σ).solution ∧
      countSolutions (generatePuzzle difficulty σ).puzzle = 1 ∧
      {t : Grid | Completion (generatePuzzle difficulty σ).puzzle t}
        = {(generatePuzzle difficulty σ).solution} := by
  obtain ⟨⟨hcmp, hu⟩, -⟩ := generatePuzzle_spec difficulty σ
  have h1 := countSolutions_eq_one hu
  refine ⟨hcmp, h1, ?_⟩
  ext t
  simp only [Set.mem_setOf_eq, Set.mem_singleton_iff]
  constructor
  · intro ht
    exact unique_completion hcmp h1 t ht
  · rintro rfl
    exact hcmp

/-- **C5.** `generateCompleteGrid` cannot fail: on every random stream the
backtracking fill succeeds (returns `some`, i.e. `fillGrid` returns `true`),
and the produced grid holds a value in `1..9` in every cell with no two equal
values sharing a row, column or box. -/
theorem generateCompleteGrid_total (σ : Nat → Nat) (k : Nat) :
    fillGridAux σ 82 k createEmptyGrid
        = (some (generateCompleteGrid σ k).1, (generateCompleteGrid σ k).2) ∧
      (∀ r c, 1 ≤ (generateCompleteGrid σ k).1 r c ∧
        (generateCompleteGrid σ k).1 r c ≤ 9) ∧
      NoConflicts (generateCompleteGrid σ k).1 := by
  obtain ⟨hfill, hcm⟩ := generateCompleteGrid_spec σ k
  obtain ⟨-, hcomp, hbd, hval⟩ := hcm
  refine ⟨hfill, ?_, (validGrid_iff_noConflicts _).mp hval⟩
  intro r c
  have h1 := hcomp r c
  have h2 := hbd r c
  omega

/-- **C7.** The carve step removes at most `81 - ⌊(min+max)/2⌋` cells
(39 / 46 / 53 by difficulty), so every generated puzzle — including the
fallback path, which is the fuel-zero case of the same loop — keeps at least
42 / 35 / 28 clues, never below the configured minimum of the range. -/
theorem generatePuzzle_clue_bounds (difficulty : Difficulty) (σ : Nat → Nat)
    (sol : Grid) (k : Nat) :
    targetRemoved Difficulty.easy = 39 ∧
      targetRemoved Difficulty.medium = 46 ∧
      targetRemoved Difficulty.hard = 53 ∧
      (removeCells σ k sol difficulty).2.1 ≤ targetRemoved difficulty ∧
      81 - targetRemoved difficulty ≤ countClues (generatePuzzle difficulty σ).puzzle ∧
      81 - targetRemoved Difficulty.easy = 42 ∧
      81 - targetRemoved Difficulty.medium = 35 ∧
      81 - targetRemoved Difficulty.hard = 28 ∧
      (targetClues difficulty).1 ≤ 81 - targetRemoved difficulty := by
  obtain ⟨-, hclue⟩ := generatePuzzle_spec difficulty σ
  refine ⟨by decide, by decide, by decide, removeCells_removed_le σ k sol difficulty,
    by omega, by decide, by decide, by decide, ?_⟩
  cases difficulty <;> decide

/-- **C9.** In a complete grid with no Sudoku conflicts, every cell value is a
valid placement in its own slot: the conflict check excludes the cell itself. -/
theorem isValidPlacement_roundtrip (g : Grid) (r c : Fin 9)
    (h1 : NoConflicts g) (h2 : Complete g) :
    isValidPlacement g r c (g r c) = true := by
  rw [isValidPlacement_iff]
  refine Or.inr fun q hu he => ?_
  exact h1 (r, c) q hu (h2 r c) he.symm

theorem isValidPlacement_roundtrip_witness :
    NoConflicts patternGrid ∧ Complete patternGrid ∧
      isValidPlacement patternGrid 0 0 (patternGrid 0 0) = true :=
  ⟨by decide, by decide,
    isValidPlacement_roundtrip patternGrid 0 0 (by decide) (by decide)⟩

/-! ## The technique ladder -/

theorem find?_min {α : Type} (R : α → α → Prop) (p : α → Bool) :
    ∀ (l : List α), l.Pairwise R → ∀ {x : α}, l.find? p = some x →
      ∀ y ∈ l, p y = true → R x y ∨ x = y := by
  intro l
  induction l with
  | nil =>
    intro _ x hf
    simp at hf
  | cons z zs ih =>
    intro hp x hf y hy hpy
    rw [List.pairwise_cons] at hp
    by_cases hz : p z = true
    · rw [List.find?_cons_of_pos _ hz] at hf
      have hx : z = x := by injection hf
      subst hx
      rcases List.mem_cons.mp hy with h | h
      · exact Or.inr h.symm
      · exact Or.inl (hp.1 y h)
    · rw [List.find?_cons_of_neg _ hz] at hf
      rcases List.mem_cons.mp hy with h | h
      · subst h
        exact absurd hpy hz
      · exact ih hp.2 hf y h hpy

theorem findNextHint_of_nakedSingle {g : Grid} {h : Hint}
    (hns : findNakedSingle g (initializeCandidates g) = some h) :
    findNextHint g defaultTechniques = some h := by
  have hc : defaultTechniques.contains TechniqueName.naked_single = true := rfl
  simp only [findNextHint]
  rw [if_pos hc, hns]

/-- **C2.** If some empty cell has a single-candidate list, the detector run
with its default technique list returns a `naked_single` hint targeting the
first such cell in row-major order (so a naked single wins over any hidden
single elsewhere); `getHint` is the same detector applied to the board's value
grid. -/
theorem findNextHint_naked_single_first (g : Grid) (p : Pos)
    (hp0 : g p.1 p.2 = 0) (hp1 : (initializeCandidates g p.1 p.2).length = 1) :
    ∃ h, findNextHint g defaultTechniques = some h ∧
      h.technique = TechniqueName.naked_single ∧
      g h.targetCell.1 h.targetCell.2 = 0 ∧
      (initializeCandidates g h.targetCell.1 h.targetCell.2).length = 1 ∧
      (∀ q : Pos, g q.1 q.2 = 0 → (initializeCandidates g q.1 q.2).length = 1 →
        rmIdx h.targetCell ≤ rmIdx q) ∧
      (∀ b : BoardState, getHint b = findNextHint (boardToGrid b) defaultTechniques) := by
  have hpp : (fun q : Pos => decide (g q.1 q.2 = 0) &&
      ((initializeCandidates g q.1 q.2).length == 1)) p = true := by
    simp only [Bool.and_eq_true, decide_eq_true_eq, beq_iff_eq]
    exact ⟨hp0, hp1⟩
  cases hf : allPositions.find? (fun q : Pos => decide (g q.1 q.2 = 0) &&
      ((initializeCandidates g q.1 q.2).length == 1)) with
  | none =>
    exfalso
    rw [List.find?_eq_none] at hf
    exact hf p (mem_allPositions p) hpp
  | some x =>
    have hx_pred := List.find?_some hf
    simp only [Bool.and_eq_true, decide_eq_true_eq, beq_iff_eq] at hx_pred
    have hx_first := find?_min (fun a b => rmIdx a < rmIdx b) _ allPositions
      pairwise_allPositions hf
    have hns : ∃ hint, findNakedSingle g (initializeCandidates g) = some hint ∧
        hint.technique = TechniqueName.naked_single ∧ hint.targetCell = x := by
      simp only [findNakedSingle]
      rw [hf]
      exact ⟨_, rfl, rfl, rfl⟩
    obtain ⟨hint, hhint, htech, hcell⟩ := hns
    refine ⟨hint, findNextHint_of_nakedSingle hhint, htech, ?_, ?_, ?_, fun b => rfl⟩
    · rw [hcell]
      exact hx_pred.1
    · rw [hcell]
      exact hx_pred.2
    · intro q hq0 hq1
      rw [hcell]
      have hqp : (fun q : Pos => decide (g q.1 q.2 = 0) &&
          ((initializeCandidates g q.1 q.2).length == 1)) q = true := by
        simp only [Bool.and_eq_true, decide_eq_true_eq, beq_iff_eq]
        exact ⟨hq0, hq1⟩
      rcases hx_first q (mem_allPositions q) hqp with h | h
      · omega
      · rw [h]

theorem findNextHint_naked_single_first_witness :
    (nsWitnessGrid 0 8 = 0 ∧ (initializeCandidates nsWitnessGrid 0 8).length = 1) ∧
      (∃ h, findNextHint nsWitnessGrid defaultTechniques = some h ∧
        h.technique = TechniqueName.naked_single ∧
        nsWitnessGrid h.targetCell.1 h.targetCell.2 = 0 ∧
        (initializeCandidates nsWitnessGrid h.targetCell.1 h.targetCell.2).length = 1 ∧
        (∀ q : Pos, nsWitnessGrid q.1 q.2 = 0 →
          (initializeCandidates nsWitnessGrid q.1 q.2).length = 1 →
          rmIdx h.targetCell ≤ rmIdx q) ∧
        (∀ b : BoardState, getHint b = findNextHint (boardToGrid b) defaultTechniques)) :=
  ⟨⟨by decide, by decide⟩,
    findNextHint_naked_single_first nsWitnessGrid ((0 : Fin 9), (8 : Fin 9))
      (by decide) (by decide)⟩

theorem findSome?_tech {α : Type} (t : TechniqueName) {f : α → Option Hint} :
    ∀ (l : List α), (∀ x ∈ l, ∀ b, f x = some b → b.technique = t) →
      ∀ (b : Hint), l.findSome? f = some b → b.technique = t := by
  intro l
  induction l with
  | nil =>
    intro _ b hb
    simp [List.findSome?] at hb
  | cons x xs ih =>
    intro hl b hb
    rw [List.findSome?_cons] at hb
    cases hfx : f x with
    | some b2 =>
      rw [hfx] at hb
      have hbb : some b2 = some b := hb
      have hb2 : b2 = b := by injection hbb
      subst hb2
      exact hl x (List.mem_cons_self x xs) b2 hfx
    | none =>
      rw [hfx] at hb
      have hxs : xs.findSome? f = some b := hb
      exact ih (fun y hy => hl y (List.mem_cons_of_mem x hy)) b hxs

theorem orElse_tech (t : TechniqueName) {a b : Option Hint}
    (ha : ∀ h, a = some h → h.technique = t)
    (hb : ∀ h, b = some h → h.technique = t) :
    ∀ h, (a <|> b) = some h → h.technique = t := by
  intro h hab
  cases ha2 : a with
  | some v =>
    rw [ha2] at hab
    simp only [Option.some_orElse] at hab
    exact ha h (by rw [ha2, hab])
  | none =>
    rw [ha2] at hab
    simp only [Option.none_orElse] at hab
    exact hb h hab

theorem findNakedSingle_tech {g : Grid} {cands : Fin 9 → Fin 9 → List Nat} {h : Hint}
    (hh : findNakedSingle g cands = some h) :
    h.technique = TechniqueName.naked_single := by
  simp only [findNakedSingle] at hh
  cases hf : allPositions.find? (fun p => decide (g p.1 p.2 = 0) &&
      ((cands p.1 p.2).length == 1)) with
  | none =>
    rw [hf] at hh
    simp at hh
  | some x =>
    rw [hf] at hh
    simp only [Option.map_some'] at hh
    injection hh with hx
    rw [← hx]

theorem findHiddenSingle_tech {g : Grid} {cands : Fin 9 → Fin 9 → List Nat} {h : Hint}
    (hh : findHiddenSingle g cands = some h) :
    h.technique = TechniqueName.hidden_single := by
  simp only [findHiddenSingle] at hh
  refine findSome?_tech TechniqueName.hidden_single (List.range' 1 9) ?_ h hh
  intro num _ b hb
  refine orElse_tech TechniqueName.hidden_single (orElse_tech TechniqueName.hidden_single ?_ ?_) ?_ b hb
  · intro b2 hr
    refine findSome?_tech TechniqueName.hidden_single (List.finRange 9) ?_ b2 hr
    intro row _ b3 hb3
    cases hfil : (List.finRange 9).filter
        (fun col => decide (g row col = 0) && (cands row col).contains num) with
    | nil =>
      rw [hfil] at hb3
      have hn : (none : Option Hint) = some b3 := hb3
      simp at hn
    | cons c1 rest =>
      cases rest with
      | nil =>
        rw [hfil] at hb3
        have hs : some _ = some b3 := hb3
        injection hs with hx
        rw [← hx]
      | cons c2 r2 =>
        rw [hfil] at hb3
        have hn : (none : Option Hint) = some b3 := hb3
        simp at hn
  · intro b2 hr
    refine findSome?_tech TechniqueName.hidden_single (List.finRange 9) ?_ b2 hr
    intro col _ b3 hb3
    cases hfil : (List.finRange 9).filter
        (fun row => decide (g row col = 0) && (cands row col).contains num) with
    | nil =>
      rw [hfil] at hb3
      have hn : (none : Option Hint) = some b3 := hb3
      simp at hn
    | cons c1 rest =>
      cases rest with
      | nil =>
        rw [hfil] at hb3
        have hs : some _ = some b3 := hb3
        injection hs with hx
        rw [← hx]
      | cons c2 r2 =>
        rw [hfil] at hb3
        have hn : (none : Option Hint) = some b3 := hb3
        simp at hn
  · intro b2 hr
    refine findSome?_tech TechniqueName.hidden_single (List.finRange 3) ?_ b2 hr
    intro boxRow _ b3 hb3
    refine findSome?_tech TechniqueName.hidden_single (List.finRange 3) ?_ b3 hb3
    intro boxCol _ b4 hb4
    cases hfil : ((List.finRange 3).flatMap fun dr => (List.finRange 3).map fun dc =>
        boxCell boxRow boxCol dr dc).filter
        (fun p => decide (g p.1 p.2 = 0) && (cands p.1 p.2).contains num) with
    | nil =>
      rw [hfil] at hb4
      have hn : (none : Option Hint) = some b4 := hb4
      simp at hn
    | cons c1 rest =>
      cases rest with
      | nil =>
        rw [hfil] at hb4
        have hs : some _ = some b4 := hb4
        injection hs with hx
        rw [← hx]
      | cons c2 r2 =>
        rw [hfil] at hb4
        have hn : (none : Option Hint) = some b4 := hb4
        simp at hn

theorem findNakedPair_tech {g : Grid} {cands : Fin 9 → Fin 9 → List Nat} {h : Hint}
    (hh : findNakedPair g cands = some h) :
    h.technique = TechniqueName.naked_pair := by
  simp only [findNakedPair] at hh
  refine findSome?_tech TechniqueName.naked_pair unitsList ?_ h hh
  intro unit _ b hb
  refine findSome?_tech TechniqueName.naked_pair _ ?_ b hb
  intro pq _ b2 hb2
  by_cases h1 : cands pq.1.1 pq.1.2 = cands pq.2.1 pq.2.2
  · rw [if_pos h1] at hb2
    split_ifs at hb2 with h2
    have hs : some _ = some b2 := hb2
    injection hs with hx
    rw [← hx]
  · rw [if_neg h1] at hb2
    exact absurd hb2 (by simp)

/-- **C4.** For every grid and allowed-technique list (including lists that
contain `pointing_pair`, as the hard difficulty's does), the detection ladder
returns either no hint or a hint whose technique is `naked_single`,
`hidden_single` or `naked_pair` — never `pointing_pair`, which has no
detection step. -/
theorem findNextHint_never_pointing_pair (g : Grid) (allowed : List TechniqueName) :
    findNextHint g allowed = none ∨
      ∃ h, findNextHint g allowed = some h ∧
        (h.technique = TechniqueName.naked_single ∨
          h.technique = TechniqueName.hidden_single ∨
          h.technique = TechniqueName.naked_pair) := by
  simp only [findNextHint]
  cases h1 : (if allowed.contains TechniqueName.naked_single then
      findNakedSingle g (initializeCandidates g) else none) with
  | some h =>
    refine Or.inr ⟨h, rfl, Or.inl ?_⟩
    by_cases hc : allowed.contains TechniqueName.naked_single = true
    · rw [if_pos hc] at h1
      exact findNakedSingle_tech h1
    · rw [if_neg hc] at h1
      simp at h1
  | none =>
    cases h2 : (if allowed.contains TechniqueName.hidden_single then
        findHiddenSingle g (initializeCandidates g) else none) with
    | some h =>
      refine Or.inr ⟨h, rfl, Or.inr (Or.inl ?_)⟩
      by_cases hc : allowed.contains TechniqueName.hidden_single = true
      · rw [if_pos hc] at h2
        exact findHiddenSingle_tech h2
      · rw [if_neg hc] at h2
        simp at h2
    | none =>
      cases h3 : (if allowed.contains TechniqueName.naked_pair then
          findNakedPair g (initializeCandidates g) else none) with
      | some h =>
        refine Or.inr ⟨h, rfl, Or.inr (Or.inr ?_)⟩
        by_cases hc : allowed.contains TechniqueName.naked_pair = true
        · rw [if_pos hc] at h3
          exact findNakedPair_tech h3
        · rw [if_neg hc] at h3
          simp at h3
      | none =>
        exact Or.inl rfl

/-! ## Solver-loop progress and termination -/

theorem mem_initializeCandidates {g : Grid} {r c : Fin 9} {n : Nat}
    (h : n ∈ initializeCandidates g r c) :
    1 ≤ n ∧ n ≤ 9 ∧ isValidPlacement g r c n = true := by
  unfold initializeCandidates at h
  by_cases h0 : g r c = 0
  · rw [if_pos h0] at h
    rw [List.mem_filter] at h
    have hr := h.1
    rw [List.mem_range'_1] at hr
    exact ⟨hr.1, by omega, h.2⟩
  · rw [if_neg h0] at h
    simp at h

theorem headD_one_le {g : Grid} {r c : Fin 9}
    (hne : initializeCandidates g r c ≠ []) :
    1 ≤ (initializeCandidates g r c).headD 0 := by
  cases hc : initializeCandidates g r c with
  | nil => exact absurd hc hne
  | cons v rest =>
    have hv : v ∈ initializeCandidates g r c := by
      rw [hc]
      exact List.mem_cons_self v rest
    have h1 := (mem_initializeCandidates hv).1
    exact h1

theorem findSome?_forall {α β : Type} (P : β → Prop) {f : α → Option β} :
    ∀ (l : List α), (∀ x ∈ l, ∀ b, f x = some b → P b) →
      ∀ (b : β), l.findSome? f = some b → P b := by
  intro l
  induction l with
  | nil =>
    intro _ b hb
    simp [List.findSome?] at hb
  | cons x xs ih =>
    intro hl b hb
    rw [List.findSome?_cons] at hb
    cases hfx : f x with
    | some b2 =>
      rw [hfx] at hb
      have hbb : some b2 = some b := hb
      have hb2 : b2 = b := by injection hbb
      subst hb2
      exact hl x (List.mem_cons_self x xs) b2 hfx
    | none =>
      rw [hfx] at hb
      have hxs : xs.findSome? f = some b := hb
      exact ih (fun y hy => hl y (List.mem_cons_of_mem x hy)) b hxs

theorem orElse_forall {β : Type} (P : β → Prop) {a b : Option β}
    (ha : ∀ h, a = some h → P h) (hb : ∀ h, b = some h → P h) :
    ∀ h, (a <|> b) = some h → P h := by
  intro h hab
  cases ha2 : a with
  | some v =>
    rw [ha2] at hab
    simp only [Option.some_orElse] at hab
    exact ha h (by rw [ha2, hab])
  | none =>
    rw [ha2] at hab
    simp only [Option.none_orElse] at hab
    exact hb h hab

theorem ordPairs_mem {α : Type} :
    ∀ (l : List α) (x y : α), (x, y) ∈ ordPairs l → x ∈ l ∧ y ∈ l := by
  intro l
  induction l with
  | nil =>
    intro x y h
    simp [ordPairs] at h
  | cons z zs ih =>
    intro x y h
    simp only [ordPairs, List.mem_append, List.mem_map] at h
    rcases h with ⟨w, hw, he⟩ | h
    · have hx : z = x := congrArg Prod.fst he
      have hy : w = y := congrArg Prod.snd he
      subst hx
      subst hy
      exact ⟨List.mem_cons_self _ _, List.mem_cons_of_mem _ hw⟩
    · obtain ⟨hx, hy⟩ := ih x y h
      exact ⟨List.mem_cons_of_mem _ hx, List.mem_cons_of_mem _ hy⟩

theorem findNakedSingle_progress {g : Grid} {h : Hint}
    (hh : findNakedSingle g (initializeCandidates g) = some h) :
    HintProgress g h := by
  simp only [findNakedSingle] at hh
  cases hf : allPositions.find? (fun p => decide (g p.1 p.2 = 0) &&
      ((initializeCandidates g p.1 p.2).length == 1)) with
  | none =>
    rw [hf] at hh
    simp at hh
  | some x =>
    rw [hf] at hh
    simp only [Option.map_some'] at hh
    injection hh with hx
    have hp := List.find?_some hf
    simp only [Bool.and_eq_true, decide_eq_true_eq, beq_iff_eq] at hp
    rw [← hx]
    refine ⟨hp.1, ?_⟩
    apply headD_one_le
    intro hnil
    rw [hnil] at hp
    simp at hp

theorem findHiddenSingle_progress {g : Grid} {h : Hint}
    (hh : findHiddenSingle g (initializeCandidates g) = some h) :
    HintProgress g h := by
  simp only [findHiddenSingle] at hh
  refine findSome?_forall (HintProgress g) (List.range' 1 9) ?_ h hh
  intro num hnum b hb
  have hnum1 : 1 ≤ num := by
    rw [List.mem_range'_1] at hnum
    exact hnum.1
  refine orElse_forall (HintProgress g) (orElse_forall (HintProgress g) ?_ ?_) ?_ b hb
  · intro b2 hr
    refine findSome?_forall (HintProgress g) (List.finRange 9) ?_ b2 hr
    intro row _ b3 hb3
    cases hfil : (List.finRange 9).filter
        (fun col => decide (g row col = 0) && (initializeCandidates g row col).contains num) with
    | nil =>
      rw [hfil] at hb3
      have hn : (none : Option Hint) = some b3 := hb3
      simp at hn
    | cons c1 rest =>
      cases rest with
      | nil =>
        rw [hfil] at hb3
        have hs : some _ = some b3 := hb3
        injection hs with hx
        rw [← hx]
        have hc1 : c1 ∈ (List.finRange 9).filter
            (fun col => decide (g row col = 0) &&
              (initializeCandidates g row col).contains num) := by
          rw [hfil]
          exact List.mem_cons_self c1 []
        rw [List.mem_filter] at hc1
        have hp := hc1.2
        simp only [Bool.and_eq_true, decide_eq_true_eq] at hp
        exact ⟨hp.1, hnum1⟩
      | cons c2 r2 =>
        rw [hfil] at hb3
        have hn : (none : Option Hint) = some b3 := hb3
        simp at hn
  · intro b2 hr
    refine findSome?_forall (HintProgress g) (List.finRange 9) ?_ b2 hr
    intro col _ b3 hb3
    cases hfil : (List.finRange 9).filter
        (fun row => decide (g row col = 0) && (initializeCandidates g row col).contains num) with
    | nil =>
      rw [hfil] at hb3
      have hn : (none : Option Hint) = some b3 := hb3
      simp at hn
    | cons c1 rest =>
      cases rest with
      | nil =>
        rw [hfil] at hb3
        have hs : some _ = some b3 := hb3
        injection hs with hx
        rw [← hx]
        have hc1 : c1 ∈ (List.finRange 9).filter
            (fun row => decide (g row col = 0) &&
              (initializeCandidates g row col).contains num) := by
          rw [hfil]
          exact List.mem_cons_self c1 []
        rw [List.mem_filter] at hc1
        have hp := hc1.2
        simp only [Bool.and_eq_true, decide_eq_true_eq] at hp
        exact ⟨hp.1, hnum1⟩
      | cons c2 r2 =>
        rw [hfil] at hb3
        have hn : (none : Option Hint) = some b3 := hb3
        simp at hn
  · intro b2 hr
    refine findSome?_forall (HintProgress g) (List.finRange 3) ?_ b2 hr
    intro boxRow _ b3 hb3
    refine findSome?_forall (HintProgress g) (List.finRange 3) ?_ b3 hb3
    intro boxCol _ b4 hb4
    cases hfil : ((List.finRange 3).flatMap fun dr => (List.finRange 3).map fun dc =>
        boxCell boxRow boxCol dr dc).filter
        (fun p => decide (g p.1 p.2 = 0) && (initializeCandidates g p.1 p.2).contains num) with
    | nil =>
      rw [hfil] at hb4
      have hn : (none : Option Hint) = some b4 := hb4
      simp at hn
    | cons c1 rest =>
      cases rest with
      | nil =>
        rw [hfil] at hb4
        have hs : some _ = some b4 := hb4
        injection hs with hx
        rw [← hx]
        have hc1 : c1 ∈ ((List.finRange 3).flatMap fun dr => (List.finRange 3).map fun dc =>
            boxCell boxRow boxCol dr dc).filter
            (fun p => decide (g p.1 p.2 = 0) &&
              (initializeCandidates g p.1 p.2).contains num) := by
          rw [hfil]
          exact List.mem_cons_self c1 []
        rw [List.mem_filter] at hc1
        have hp := hc1.2
        simp only [Bool.and_eq_true, decide_eq_true_eq] at hp
        exact ⟨hp.1, hnum1⟩
      | cons c2 r2 =>
        rw [hfil] at hb4
        have hn : (none : Option Hint) = some b4 := hb4
        simp at hn

theorem findNakedPair_progress {g : Grid} {h : Hint}
    (hh : findNakedPair g (initializeCandidates g) = some h) :
    HintProgress g h := by
  simp only [findNakedPair] at hh
  refine findSome?_forall (HintProgress g) unitsList ?_ h hh
  intro unit _ b hb
  refine findSome?_forall (HintProgress g) _ ?_ b hb
  intro pq hpq b2 hb2
  by_cases h1 : initializeCandidates g pq.1.1 pq.1.2 = initializeCandidates g pq.2.1 pq.2.2
  · rw [if_pos h1] at hb2
    split_ifs at hb2 with h2
    have hs : some _ = some b2 := hb2
    injection hs with hx
    rw [← hx]
    have hmem := ordPairs_mem _ pq.1 pq.2 hpq
    have hp1 := hmem.1
    rw [List.mem_filter] at hp1
    have hp := hp1.2
    simp only [Bool.and_eq_true, decide_eq_true_eq, beq_iff_eq] at hp
    refine ⟨hp.1, ?_⟩
    apply headD_one_le
    intro hnil
    rw [hnil] at hp
    simp at hp
  · rw [if_neg h1] at hb2
    exact absurd hb2 (by simp)

/-- Every hint returned by the detector targets an empty cell with a non-zero
value, so committing it strictly decreases the number of empty cells. -/
theorem findNextHint_progress {g : Grid} {allowed : List TechniqueName} {h : Hint}
    (hh : findNextHint g allowed = some h) : HintProgress g h := by
  simp only [findNextHint] at hh
  cases h1 : (if allowed.contains TechniqueName.naked_single then
      findNakedSingle g (initializeCandidates g) else none) with
  | some h2 =>
    rw [h1] at hh
    have hs : some h2 = some h := hh
    have he : h2 = h := by injection hs
    subst he
    by_cases hc : allowed.contains TechniqueName.naked_single = true
    · rw [if_pos hc] at h1
      exact findNakedSingle_progress h1
    · rw [if_neg hc] at h1
      simp at h1
  | none =>
    rw [h1] at hh
    cases h2 : (if allowed.contains TechniqueName.hidden_single then
        findHiddenSingle g (initializeCandidates g) else none) with
    | some h3 =>
      rw [h2] at hh
      have hs : some h3 = some h := hh
      have he : h3 = h := by injection hs
      subst he
      by_cases hc : allowed.contains TechniqueName.hidden_single = true
      · rw [if_pos hc] at h2
        exact findHiddenSingle_progress h2
      · rw [if_neg hc] at h2
        simp at h2
    | none =>
      rw [h2] at hh
      have hs : (if allowed.contains TechniqueName.naked_pair then
          findNakedPair g (initializeCandidates g) else none) = some h := hh
      by_cases hc : allowed.contains TechniqueName.naked_pair = true
      · rw [if_pos hc] at hs
        exact findNakedPair_progress hs
      · rw [if_neg hc] at hs
        simp at hs

theorem solveLoop_char (allowed : List TechniqueName) :
    ∀ (fuel : Nat) (g : Grid) (used : List TechniqueName),
      emptyCount g < fuel →
      ((solveLoop allowed fuel g used).solved = true ∧
        gridFull (solveFinal allowed fuel g) = true) ∨
      ((solveLoop allowed fuel g used).solved = false ∧
        gridFull (solveFinal allowed fuel g) = false ∧
        findNextHint (solveFinal allowed fuel g) allowed = none) := by
  intro fuel
  induction fuel with
  | zero =>
    intro g used hlt
    omega
  | succ n ih =>
    intro g used hlt
    by_cases hf : gridFull g = true
    · left
      constructor
      · simp only [solveLoop]
        rw [if_pos hf]
      · simp only [solveFinal]
        rw [if_pos hf]
        exact hf
    · cases hh : findNextHint g allowed with
      | none =>
        right
        refine ⟨?_, ?_, ?_⟩
        · simp only [solveLoop]
          rw [if_neg hf, hh]
        · simp only [solveFinal]
          rw [if_neg hf]
          rw [hh]
          exact Bool.eq_false_iff.mpr hf
        · simp only [solveFinal]
          rw [if_neg hf]
          rw [hh]
          exact hh
      | some h =>
        have hprog := findNextHint_progress hh
        have hval : h.targetValue ≠ 0 := by
          have := hprog.2
          omega
        have hdec := emptyCount_setCell hprog.1 hval
        have hlt2 : emptyCount (setCell g h.targetCell.1 h.targetCell.2 h.targetValue) < n := by
          omega
        have hsl : solveLoop allowed (n + 1) g used =
            solveLoop allowed n (setCell g h.targetCell.1 h.targetCell.2 h.targetValue)
              (used ++ [h.technique]) := by
          simp only [solveLoop]
          rw [if_neg hf, hh]
        have hsf : solveFinal allowed (n + 1) g =
            solveFinal allowed n (setCell g h.targetCell.1 h.targetCell.2 h.targetValue) := by
          simp only [solveFinal]
          rw [if_neg hf, hh]
        rw [hsl, hsf]
        exact ih _ (used ++ [h.technique]) hlt2

/-- C6: `solvePuzzleWithTechniques` always terminates with a structured
`{ solved, techniques }` result: `solved = true` exactly when the working grid
reaches a state with no empty cells, and `solved = false` exactly when the
allowed techniques yield no further hint on the final grid (within the
iteration cap of 1000, which the at-most-81 possible placements never exceed);
with an exhausted budget the loop aborts with `solved := false`. -/
theorem solvePuzzleWithTechniques_total :
    ∀ (puzzle : Grid) (allowed : List TechniqueName),
      (((solvePuzzleWithTechniques puzzle allowed).solved = true ∧
          gridFull (solveFinal allowed 1000 puzzle) = true) ∨
        ((solvePuzzleWithTechniques puzzle allowed).solved = false ∧
          gridFull (solveFinal allowed 1000 puzzle) = false ∧
          findNextHint (solveFinal allowed 1000 puzzle) allowed = none)) ∧
      (∀ (g : Grid) (used : List TechniqueName),
        solveLoop allowed 0 g used = { solved := false, techniques := used }) := by
  intro puzzle allowed
  refine ⟨?_, fun g used => rfl⟩
  have hfuel : emptyCount puzzle < 1000 := by
    have := emptyCount_le_81 puzzle
    omega
  have h := solveLoop_char allowed 1000 puzzle [] hfuel
  simpa only [solvePuzzleWithTechniques] using h

/-! ## Highlight transformations (C8) -/

theorem foldl_highlight (l : List Pos) :
    ∀ (b : BoardState) (r c : Fin 9),
      (l.foldl
        (fun bb p => setBoardCell bb p.1 p.2 { bb p.1 p.2 with isHighlighted := true }) b) r c
      = if (r, c) ∈ l then { b r c with isHighlighted := true } else b r c := by
  induction l with
  | nil =>
    intro b r c
    simp [List.foldl]
  | cons p ps ih =>
    intro b r c
    rw [List.foldl_cons]
    rw [ih]
    by_cases hp : r = p.1 ∧ c = p.2
    · have hm : (r, c) ∈ p :: ps := by
        have hpe : p = (r, c) := by
          rw [Prod.ext_iff]
          exact ⟨hp.1.symm, hp.2.symm⟩
        rw [hpe]
        exact List.mem_cons_self _ _
      rw [if_pos hm]
      have hset : setBoardCell b p.1 p.2 { b p.1 p.2 with isHighlighted := true } r c
          = { b r c with isHighlighted := true } := by
        unfold setBoardCell
        rw [if_pos hp, hp.1, hp.2]
      rw [hset]
      by_cases hm2 : (r, c) ∈ ps
      · rw [if_pos hm2]
      · rw [if_neg hm2]
    · have hset : setBoardCell b p.1 p.2 { b p.1 p.2 with isHighlighted := true } r c
          = b r c := by
        unfold setBoardCell
        rw [if_neg hp]
      rw [hset]
      have hmne : (r, c) ≠ p := by
        intro he
        exact hp ⟨congrArg Prod.fst he, congrArg Prod.snd he⟩
      by_cases hm2 : (r, c) ∈ ps
      · rw [if_pos hm2, if_pos (List.mem_cons_of_mem p hm2)]
      · rw [if_neg hm2, if_neg ?_]
        intro hmem
        rcases List.mem_cons.mp hmem with he | hmem2
        · exact hmne he
        · exact hm2 hmem2

/-- C8 (amended): `applyHintHighlights` and `clearHighlights` are pure board
transformations. `applyHintHighlights` leaves `value`, `isGiven`, `isError`
and `candidates` of every cell untouched, and sets the `isHighlighted` flag
to exactly the membership of the cell in the hint highlight list — so it
first clears the flag everywhere (cells not in the list end up
un-highlighted, not untouched) and then highlights the listed cells;
`clearHighlights` clears the flag on every cell and changes nothing else. -/
theorem applyHintHighlights_spec :
    ∀ (board : BoardState) (hint : Hint) (r c : Fin 9),
      (applyHintHighlights board hint r c).isHighlighted
          = decide ((r, c) ∈ hint.highlightCells) ∧
      (applyHintHighlights board hint r c).value = (board r c).value ∧
      (applyHintHighlights board hint r c).isGiven = (board r c).isGiven ∧
      (applyHintHighlights board hint r c).isError = (board r c).isError ∧
      (applyHintHighlights board hint r c).candidates = (board r c).candidates ∧
      clearHighlights board r c = { board r c with isHighlighted := false } := by
  intro board hint r c
  have hval : applyHintHighlights board hint r c
      = if (r, c) ∈ hint.highlightCells
        then { { board r c with isHighlighted := false } with isHighlighted := true }
        else { board r c with isHighlighted := false } := by
    simp only [applyHintHighlights]
    exact foldl_highlight hint.highlightCells _ r c
  by_cases hm : (r, c) ∈ hint.highlightCells
  · rw [hval, if_pos hm]
    refine ⟨by simp [hm], rfl, rfl, rfl, rfl, rfl⟩
  · rw [hval, if_neg hm]
    refine ⟨by simp [hm], rfl, rfl, rfl, rfl, rfl⟩

/-- Refutation of the original C8 wording: on a board whose every cell is
highlighted, applying a hint that names only `(1, 1)` changes the state of the
un-named cell `(0, 0)` (its highlight is cleared), so cells outside the
highlight list are not left untouched. -/
theorem applyHintHighlights_cex :
    (applyHintHighlights cexBoard cexHint 0 0).isHighlighted = false ∧
    (cexBoard 0 0).isHighlighted = true := by
  decide

/-! ## Solution checking (C10) -/

/-- C10: `checkAgainstSolution` compares only filled cells: `errors` holds
exactly the positions whose non-zero value differs from the solution (a cell
with value 0 is never listed), `correct` is true iff `errors` is empty, and a
fully empty board is reported correct with no errors. -/
theorem checkAgainstSolution_spec :
    ∀ (board : BoardState) (solution : Grid),
      (∀ p : Pos, p ∈ (checkAgainstSolution board solution).errors ↔
        (board p.1 p.2).value ≠ 0 ∧ (board p.1 p.2).value ≠ solution p.1 p.2) ∧
      ((checkAgainstSolution board solution).correct = true ↔
        (checkAgainstSolution board solution).errors = []) ∧
      checkAgainstSolution emptyBoard solution = { correct := true, errors := [] } := by
  intro board solution
  refine ⟨?_, ?_, ?_⟩
  · intro p
    simp only [checkAgainstSolution]
    constructor
    · intro h
      have hc := (List.mem_filter.mp h).2
      simp only [Bool.and_eq_true, decide_eq_true_eq] at hc
      exact hc
    · intro h
      refine List.mem_filter.mpr ⟨mem_allPositions p, ?_⟩
      simp only [Bool.and_eq_true, decide_eq_true_eq]
      exact h
  · simp only [checkAgainstSolution]
    rw [beq_iff_eq, List.length_eq_zero]
  · have herr : (allPositions.filter fun p =>
        decide ((emptyBoard p.1 p.2).value ≠ 0) &&
          decide ((emptyBoard p.1 p.2).value ≠ solution p.1 p.2)) = [] := by
      apply List.filter_eq_nil_iff.mpr
      intro p _
      simp [emptyBoard]
    simp only [checkAgainstSolution, herr]
    rfl

/-! ## Daily puzzle determinism (C3) -/

/-- C3: `generateDailyPuzzle` is deterministic in its date string: two runs on
the same date are equal; the result carries the date itself; its difficulty is
the day-of-week mapping applied to the parsed date; its puzzle/solution pair
is exactly `generatePuzzle` run on the Mulberry32 stream seeded with
`year*10000 + month*100 + day`; and the difficulty mapping sends
Monday/Tuesday to easy, Wednesday/Thursday to medium and Friday-Sunday to
hard (checked concretely on the week 2026-10-12 .. 2026-10-18). -/
theorem generateDailyPuzzle_deterministic :
    ∀ (s : String),
      generateDailyPuzzle s = generateDailyPuzzle s ∧
      (generateDailyPuzzle s).date = s ∧
      (generateDailyPuzzle s).difficulty =
        dailyDifficulty (parseDate s).1 (parseDate s).2.1 (parseDate s).2.2 ∧
      (generateDailyPuzzle s).puzzle =
        (generatePuzzle
          (dailyDifficulty (parseDate s).1 (parseDate s).2.1 (parseDate s).2.2)
          (mulberryStream
            (dailySeed (parseDate s).1 (parseDate s).2.1 (parseDate s).2.2))).puzzle ∧
      (generateDailyPuzzle s).solution =
        (generatePuzzle
          (dailyDifficulty (parseDate s).1 (parseDate s).2.1 (parseDate s).2.2)
          (mulberryStream
            (dailySeed (parseDate s).1 (parseDate s).2.1 (parseDate s).2.2))).solution ∧
      (∀ y m d : Nat, dailySeed y m d = y * 10000 + m * 100 + d) ∧
      (∀ y m d : Nat, dailyDifficulty y m d =
        if dayOfWeek y m d = 1 ∨ dayOfWeek y m d = 2 then Difficulty.easy
        else if dayOfWeek y m d = 3 ∨ dayOfWeek y m d = 4 then Difficulty.medium
        else Difficulty.hard) ∧
      (dayOfWeek 2026 10 12 = 1 ∧ dailyDifficulty 2026 10 12 = Difficulty.easy) ∧
      (dayOfWeek 2026 10 13 = 2 ∧ dailyDifficulty 2026 10 13 = Difficulty.easy) ∧
      (dayOfWeek 2026 10 14 = 3 ∧ dailyDifficulty 2026 10 14 = Difficulty.medium) ∧
      (dayOfWeek 2026 10 15 = 4 ∧ dailyDifficulty 2026 10 15 = Difficulty.medium) ∧
      (dayOfWeek 2026 10 16 = 5 ∧ dailyDifficulty 2026 10 16 = Difficulty.hard) ∧
      (dayOfWeek 2026 10 17 = 6 ∧ dailyDifficulty 2026 10 17 = Difficulty.hard) ∧
      (dayOfWeek 2026 10 18 = 0 ∧ dailyDifficulty 2026 10 18 = Difficulty.hard) := by
  intro s
  refine ⟨rfl, rfl, rfl, rfl, rfl, fun y m d => rfl, fun y m d => rfl,
    by decide, by decide, by decide, by decide, by decide, by decide, by decide⟩

end SudokuOwl
